import Mathlib

/-!
Verification of the `core-zod-schema-validator` module (`validateSchemaZod`).

The module validates `data` against a Zod schema (`schema.safeParse data`,
treated as an opaque capability returning a success flag and a list of
path-addressed issues) and annotates a deep copy of `data` with marker
strings at the issue locations.  The annotation uses lodash `_.cloneDeep`,
`_.get` and `_.set` with a *string* path obtained from `error.path.join('.')`,
so the lodash string-path semantics (splitting on `'.'`, the `isKey` single
key shortcut, index keys for arrays, intermediate-container creation) are
modelled here as well.

Modelling notes (JS/lodash semantics captured by the shallow embedding):
- JS values are modelled by the mutual family `Json`/`JsonList`/`JsonFields`;
  `Json.undefined` is the JS `undefined`.
- Numbers are modelled as `Int` (the claims under verification do not
  depend on floating-point behaviour).
- lodash `stringToPath` is modelled for dot-separated paths (the form
  produced by `error.path.join('.')`); the bracket/quote syntax of lodash
  path strings is approximated, faithfully for strings without brackets.
- Setting a non-index string key on an array (which in JS stores a
  non-element property on the array object) is modelled as leaving the
  array unchanged; element and object writes are modelled exactly.
- `JSON.stringify` is modelled for the value forms above; of the control
  characters only `\"`, `\\`, newline, carriage return and tab are escaped.
-/

set_option linter.unusedVariables false

namespace ZodValidator

mutual

/-- JS runtime values occurring as validated data: `undefined`, `null`,
booleans, numbers, strings, arrays and plain objects. -/
inductive Json where
  | undefined : Json
  | null : Json
  | bool : Bool → Json
  | num : Int → Json
  | str : String → Json
  | arr : JsonList → Json
  | obj : JsonFields → Json
deriving DecidableEq

/-- The elements of a JS array. -/
inductive JsonList where
  | nil : JsonList
  | cons : Json → JsonList → JsonList
deriving DecidableEq

/-- The ordered key/value fields of a JS object (keys are strings). -/
inductive JsonFields where
  | nil : JsonFields
  | fcons : String → Json → JsonFields → JsonFields
deriving DecidableEq

end

/-- Build a `JsonList` from a Lean list (for writing concrete values). -/
def jl : List Json → JsonList
  | [] => .nil
  | x :: xs => .cons x (jl xs)

/-- Build `JsonFields` from a Lean list (for writing concrete values). -/
def jf : List (String × Json) → JsonFields
  | [] => .nil
  | (k, v) :: t => .fcons k v (jf t)

/-- lodash `isObject`: true exactly for arrays and plain objects among the
value forms of `Json` (functions are not data values here). -/
def Json.isObjectJs : Json → Bool
  | .arr _ => true
  | .obj _ => true
  | _ => false

/-- First-match lookup in an object's field list (JS property read). -/
def lookupKV : JsonFields → String → Option Json
  | .nil, _ => none
  | .fcons k1 v1 kvs, k => if k1 = k then some v1 else lookupKV kvs k

/-- JS property assignment on an object's field list: overwrite the first
field with the given key, or append a new field. -/
def insertKV : JsonFields → String → Json → JsonFields
  | .nil, k, v => .fcons k v .nil
  | .fcons k1 v1 kvs, k, v =>
    if k1 = k then .fcons k1 v kvs else .fcons k1 v1 (insertKV kvs k v)

/-- Number of elements of a JS array. -/
def lengthL : JsonList → Nat
  | .nil => 0
  | .cons _ xs => lengthL xs + 1

/-- Element read at an index of a JS array (as an option). -/
def nthElem : JsonList → Nat → Option Json
  | .nil, _ => none
  | .cons x _, 0 => some x
  | .cons _ xs, n + 1 => nthElem xs n

/-- In-bounds element write at an index of a JS array. -/
def setNth : JsonList → Nat → Json → JsonList
  | .nil, _, _ => .nil
  | .cons _ xs, 0, v => .cons v xs
  | .cons x xs, n + 1, v => .cons x (setNth xs n v)

/-- Concatenation of JS array element lists. -/
def appendL : JsonList → JsonList → JsonList
  | .nil, ys => ys
  | .cons x xs, ys => .cons x (appendL xs ys)

/-- `m` holes (`undefined`) followed by the single element `v`. -/
def padTail : Nat → Json → JsonList
  | 0, v => .cons v .nil
  | m + 1, v => .cons .undefined (padTail m v)

/-- JS array element assignment `arr[n] = v`: in-bounds write, or extend
the array with holes (`undefined`) up to index `n`. -/
def writeIdx (xs : JsonList) (n : Nat) (v : Json) : JsonList :=
  if n < lengthL xs then setNth xs n v
  else appendL xs (padTail (n - lengthL xs) v)

/-- Decimal digit character. -/
def digitChar : Nat → Char
  | 0 => '0' | 1 => '1' | 2 => '2' | 3 => '3' | 4 => '4'
  | 5 => '5' | 6 => '6' | 7 => '7' | 8 => '8' | _ => '9'

/-- Decimal digits of a natural number (fuel-driven so that it reduces in
the kernel; any `fuel > n` computes the digits). -/
def natCharsFuel : Nat → Nat → List Char
  | 0, _ => []
  | fuel + 1, n =>
    if n < 10 then [digitChar n]
    else natCharsFuel fuel (n / 10) ++ [digitChar (n % 10)]

/-- Decimal string of a natural number (JS `String(n)` for integers). -/
def natToString (n : Nat) : String := String.mk (natCharsFuel (n + 1) n)

/-- Decimal string of an integer (JS number-to-string for integers). -/
def intToString (n : Int) : String :=
  if n < 0 then "-" ++ natToString n.natAbs else natToString n.toNat

/-- Numeric value of a list of decimal digit characters. -/
def digitsVal (cs : List Char) : Nat :=
  cs.foldl (fun a c => 10 * a + (c.toNat - 48)) 0

/-- lodash `isIndex` on a string key: a canonical decimal numeral
(nonempty, digits only, no leading zero unless it is `"0"`). -/
def isIndexChars : List Char → Bool
  | [] => false
  | c :: rest => c.isDigit && rest.all Char.isDigit && (c != '0' || rest.isEmpty)

/-- lodash `isIndex` on a string key. -/
def isIndexStr (s : String) : Bool := isIndexChars s.data

/-- A `\w` word character (ASCII letter, digit or underscore). -/
def isWordChar (c : Char) : Bool := c.isAlphanum || c == '_'

/-- lodash `reIsPlainProp` (`/^\w*$/`). -/
def isPlainProp (s : String) : Bool := s.data.all isWordChar

/-- Scan after a `'['` for a closing `']'` with no nested bracket before it
(the `[^[\]]*` alternative of lodash's `reIsDeepProp`). -/
def innerBracketScan : List Char → Bool
  | [] => false
  | c :: rest =>
    if c = ']' then true
    else if c = '[' then false
    else innerBracketScan rest

/-- Whether the character list contains a `[...]` group. -/
def hasBracketGroup : List Char → Bool
  | [] => false
  | c :: rest => (c == '[' && innerBracketScan rest) || hasBracketGroup rest

/-- lodash `reIsDeepProp`: a dot anywhere, or a bracket group. -/
def isDeepProp (s : String) : Bool :=
  s.data.any (fun c => c = '.') || hasBracketGroup s.data

/-- Split a character list at every `'.'` (the behaviour of lodash
`stringToPath` on dot-separated path strings; always nonempty). -/
def splitOnDot : List Char → List (List Char)
  | [] => [[]]
  | c :: rest =>
    if c = '.' then [] :: splitOnDot rest
    else
      match splitOnDot rest with
      | [] => [[c]]
      | g :: gs => (c :: g) :: gs

/-- lodash `stringToPath` (restricted to dot-separated path strings, the
form produced by `Array.prototype.join('.')` over bracket-free segments). -/
def stringToPath (s : String) : List String :=
  (splitOnDot s.data).map String.mk

/-- Whether the top level of a JS value has the given own property
(the `value in Object(object)` test of lodash `isKey`; for arrays this is
an in-bounds index; inherited properties are not data-relevant here). -/
def topHasKey : Json → String → Bool
  | .obj kvs, s => (lookupKV kvs s).isSome
  | .arr xs, s => isIndexStr s && digitsVal s.data < lengthL xs
  | _, _ => false

/-- lodash `isKey`: the string is taken as a single property key when it is
a plain word, or has no deep-path syntax, or is an actual property of the
object being accessed. -/
def isKeyStr (s : String) (o : Json) : Bool :=
  isPlainProp s || !isDeepProp s || topHasKey o s

/-- lodash `castPath` for string paths. -/
def castPath (s : String) (o : Json) : List String :=
  if isKeyStr s o then [s] else stringToPath s

/-- lodash `baseGet`: walk the parsed key list; any miss (absent key,
out-of-bounds or non-index key on an array, key on a primitive) yields
`undefined`. -/
def getPath : Json → List String → Json
  | v, [] => v
  | .obj kvs, k :: rest => getPath ((lookupKV kvs k).getD .undefined) rest
  | .arr xs, k :: rest =>
    getPath (if isIndexStr k then (nthElem xs (digitsVal k.data)).getD .undefined else .undefined) rest
  | _, _ :: _ => .undefined

/-- lodash `_.get(object, path)` for a string path. -/
def lodashGet (o : Json) (s : String) : Json := getPath o (castPath s o)

/-- lodash `baseSet` on a parsed key list: descend creating intermediate
containers (`[]` when the next key is an index, `{}` otherwise) over
non-object values, and assign at the last key.  A non-index key on an
array is modelled as leaving the array unchanged (in JS it would store a
non-element property, invisible to the data model). -/
def setParsed : Json → List String → Json → Json
  | o, [], _ => o
  | .obj kvs, [k], v => .obj (insertKV kvs k v)
  | .arr xs, [k], v =>
    if isIndexStr k then .arr (writeIdx xs (digitsVal k.data) v) else .arr xs
  | .obj kvs, k :: k2 :: rest, v =>
    let child := (lookupKV kvs k).getD .undefined
    let childBase :=
      if child.isObjectJs then child
      else if isIndexStr k2 then Json.arr .nil else Json.obj .nil
    .obj (insertKV kvs k (setParsed childBase (k2 :: rest) v))
  | .arr xs, k :: k2 :: rest, v =>
    if isIndexStr k then
      let n := digitsVal k.data
      let child := (nthElem xs n).getD .undefined
      let childBase :=
        if child.isObjectJs then child
        else if isIndexStr k2 then Json.arr .nil else Json.obj .nil
      .arr (writeIdx xs n (setParsed childBase (k2 :: rest) v))
    else .arr xs
  | o, _ :: _, _ => o

/-- lodash `_.set(object, path, value)` for a string path: a no-op on
non-object roots, otherwise `baseSet` over the cast path. -/
def lodashSet (o : Json) (s : String) (v : Json) : Json :=
  if o.isObjectJs then setParsed o (castPath s o) v else o

mutual

/-- lodash `_.cloneDeep`: a full structural copy of the value. -/
def cloneDeep : Json → Json
  | .arr xs => .arr (cloneList xs)
  | .obj kvs => .obj (cloneFields kvs)
  | v => v

/-- `cloneDeep` on array elements. -/
def cloneList : JsonList → JsonList
  | .nil => .nil
  | .cons x xs => .cons (cloneDeep x) (cloneList xs)

/-- `cloneDeep` on object fields. -/
def cloneFields : JsonFields → JsonFields
  | .nil => .nil
  | .fcons k v kvs => .fcons k (cloneDeep v) (cloneFields kvs)

end

/-- JSON string escaping for the characters modelled here. -/
def escapeChar (c : Char) : List Char :=
  if c = '"' then ['\\', '"']
  else if c = '\\' then ['\\', '\\']
  else if c = '\n' then ['\\', 'n']
  else if c = '\r' then ['\\', 'r']
  else if c = '\t' then ['\\', 't']
  else [c]

/-- JSON escaping of a character list. -/
def escapeChars : List Char → List Char
  | [] => []
  | c :: rest => escapeChar c ++ escapeChars rest

/-- A JSON string literal for the given string. -/
def quoteJson (s : String) : String :=
  "\"" ++ String.mk (escapeChars s.data) ++ "\""

mutual

/-- `JSON.stringify` of a JS value; `none` models the JS `undefined`
result (for `undefined` input).  Inside arrays `undefined` renders as
`null`; inside objects the member is omitted. -/
def jsonStringify : Json → Option String
  | .undefined => none
  | .null => some "null"
  | .bool b => some (cond b "true" "false")
  | .num n => some (intToString n)
  | .str s => some (quoteJson s)
  | .arr xs => some ("[" ++ stringifyElems xs ++ "]")
  | .obj kvs => some ("\x7b" ++ stringifyMembers kvs true ++ "\x7d")

/-- The comma-separated serializations of array elements. -/
def stringifyElems : JsonList → String
  | .nil => ""
  | .cons x .nil => (jsonStringify x).getD "null"
  | .cons x xs => (jsonStringify x).getD "null" ++ "," ++ stringifyElems xs

/-- The comma-separated serializations of object members (members whose
value has no serialization are omitted; `first` tracks the comma). -/
def stringifyMembers : JsonFields → Bool → String
  | .nil, _ => ""
  | .fcons k v kvs, first =>
    match jsonStringify v with
    | none => stringifyMembers kvs first
    | some s =>
      (cond first "" ",") ++ quoteJson k ++ ":" ++ s ++ stringifyMembers kvs false

end

/-- Replace every `"` by `'` (the JS `replaceAll` with the one-character
pattern `\x22` is a character map). -/
def replaceQuotes (s : String) : String :=
  String.mk (s.data.map (fun c => if c = '"' then '\'' else c))

/-- The source's rendering of an offending value:
`String(JSON.stringify(value)).replaceAll(...)` — a JS `undefined`
serialization becomes the text `undefined` via `String()`, and every
double quote is replaced by a single quote. -/
def valueDisplay (value : Json) : String :=
  replaceQuotes ((jsonStringify value).getD "undefined")

/-- One segment of a Zod issue path: a property name or an array index. -/
inductive Seg where
  | str : String → Seg
  | idx : Nat → Seg
deriving DecidableEq

/-- The string form of a path segment used by `Array.prototype.join`. -/
def segToString : Seg → String
  | .str s => s
  | .idx n => natToString n

/-- Concatenate string forms with `'.'` between them (JS `join('.')`). -/
def joinChars : List (List Char) → List Char
  | [] => []
  | [g] => g
  | g :: g2 :: gs => g ++ '.' :: joinChars (g2 :: gs)

/-- `error.path.join('.')`. -/
def joinSegs (p : List Seg) : String :=
  String.mk (joinChars (p.map (fun s => (segToString s).data)))

/-- A Zod issue: a path into the data and a message; the reserved message
`"Required"` signals an absent required property. -/
structure ZodIssue where
  path : List Seg
  message : String
deriving DecidableEq

/-- The outcome of `schema.safeParse(data)`: a success flag, and the issue
list `result.error.issues` (meaningful when validation failed). -/
structure SafeParseOutcome where
  success : Bool
  issues : List ZodIssue

/-- A Zod schema, opaque except for its `safeParse` capability. -/
structure ZodSchema where
  safeParse : Json → SafeParseOutcome

/-- The icons used to flag issues. -/
structure IssuesStyles where
  iconPropertyError : String
  iconPropertyMissing : String
deriving DecidableEq

/-- The module-level default icons. -/
def issuesStylesDefault : IssuesStyles :=
  { iconPropertyError := "⚠️", iconPropertyMissing := "❌" }

/-- The fixed message thrown when no schema is provided. -/
def errorInvalidSchema : String := "You must provide a valid schema!"

/-- A caller-supplied partial override of the icons (`none` = key absent). -/
structure PartialIssuesStyles where
  iconPropertyError : Option String := none
  iconPropertyMissing : Option String := none
deriving DecidableEq

/-- The spread merge `{ ...issuesStylesDefault, ...issuesStyles }`:
caller-present keys win, absent keys fall back to the defaults. -/
def mergeStyles (ov : PartialIssuesStyles) : IssuesStyles :=
  { iconPropertyError := ov.iconPropertyError.getD issuesStylesDefault.iconPropertyError,
    iconPropertyMissing := ov.iconPropertyMissing.getD issuesStylesDefault.iconPropertyMissing }

/-- The marker text computed for one issue (`errorDescription` in the
source): the missing-property marker for the reserved `"Required"`
message, otherwise space, error icon, space, rendered value, space,
message. -/
def errorDescription (styles : IssuesStyles) (value : Json) (message : String) : String :=
  if message = "Required" then styles.iconPropertyMissing ++ " Missing property"
  else " " ++ styles.iconPropertyError ++ " " ++ valueDisplay value ++ " " ++ message

/-- The body of the `errors.forEach` loop in `_validateSchemaZOD`: join the
issue path, read the offending value from the *original* `data`, format the
marker and write it into the accumulating copy with `_.set`. -/
def applyIssue (data : Json) (styles : IssuesStyles) (dm : Json) (error : ZodIssue) : Json :=
  let instancePath := joinSegs error.path
  let value := lodashGet data instancePath
  let errDesc := errorDescription styles value error.message
  lodashSet dm instancePath (.str errDesc)

/-- The annotation pass: a deep copy of `data` with the issues applied in
the engine's order. -/
def annotateAll (data : Json) (styles : IssuesStyles) (issues : List ZodIssue) : Json :=
  issues.foldl (applyIssue data styles) (cloneDeep data)

/-- The value produced by the private `_validateSchemaZOD`. -/
structure ValidationResult where
  valid : Bool
  errors : Option (List ZodIssue)
  dataMismatches : Json

/-- The private `_validateSchemaZOD(schema, data, issuesStyles)`:
run `safeParse`, take `errors = null` on success and the issue list on
failure, deep-copy the data and, on failure, annotate every issue. -/
def _validateSchemaZOD (schema : ZodSchema) (data : Json) (issuesStyles : IssuesStyles) :
    ValidationResult :=
  let result := schema.safeParse data
  let valid := result.success
  let errors := if valid then none else some result.issues
  let dataMismatches := cloneDeep data
  let dataMismatches :=
    if valid then dataMismatches
    else result.issues.foldl (applyIssue data issuesStyles) dataMismatches
  { valid := valid, errors := errors, dataMismatches := dataMismatches }

/-- The value returned by the public entry point. -/
structure Result where
  errors : Option (List ZodIssue)
  dataMismatches : Json
  issuesStyles : IssuesStyles

/-- The public `validateSchemaZod(data, schema, issuesStyles = {})`:
throws the fixed message when `schema` is `null`/`undefined` (modelled by
`Option` and `Except`), otherwise merges the styles over the defaults,
delegates to the private function and assembles the result. -/
def validateSchemaZod (data : Json) (schema : Option ZodSchema)
    (issuesStyles : PartialIssuesStyles := {}) : Except String Result :=
  match schema with
  | none => .error errorInvalidSchema
  | some sch =>
    let merged := mergeStyles issuesStyles
    let r := _validateSchemaZOD sch data merged
    .ok { errors := r.errors, dataMismatches := r.dataMismatches, issuesStyles := merged }

/-! ### Claim-side path access

The specification's invariant speaks about locations addressed by the
issue's *segment sequence*.  The following functions read, replace and
resolve a location directly by segments (never through a joined string),
for stating the invariant and comparing it with the source's behaviour. -/

/-- Read the value at a segment path (absence gives `undefined`). -/
def getSeg : Json → List Seg → Json
  | v, [] => v
  | .obj kvs, .str k :: rest => getSeg ((lookupKV kvs k).getD .undefined) rest
  | .arr xs, .idx n :: rest => getSeg ((nthElem xs n).getD .undefined) rest
  | _, _ :: _ => .undefined

/-- Replace the value at a segment path (leaving the tree unchanged when a
segment does not fit the container it meets). -/
def updateAt : Json → List Seg → Json → Json
  | _, [], v => v
  | .obj kvs, .str k :: rest, v =>
    .obj (insertKV kvs k (updateAt ((lookupKV kvs k).getD .undefined) rest v))
  | .arr xs, .idx n :: rest, v =>
    .arr (setNth xs n (updateAt ((nthElem xs n).getD .undefined) rest v))
  | o, _ :: _, _ => o

/-- Whether a segment path resolves to an existing location: every string
segment meets an object that has the key, every index segment meets an
array that is long enough. -/
def resolvesIn : Json → List Seg → Bool
  | _, [] => true
  | .obj kvs, .str k :: rest =>
    match lookupKV kvs k with
    | some c => resolvesIn c rest
    | none => false
  | .arr xs, .idx n :: rest =>
    match nthElem xs n with
    | some c => resolvesIn c rest
    | none => false
  | _, _ :: _ => false

/-- Whether `p` is an ancestor of (a prefix of, or equal to) `q`. -/
def ancestorOfSegs : List Seg → List Seg → Bool
  | [], _ => true
  | _ :: _, [] => false
  | s :: p, t :: q => if s = t then ancestorOfSegs p q else false

/-- A path segment free of the lodash path-separator characters
(`'.'`, `'['`, `']'`); index segments always are. -/
def plainSeg : Seg → Bool
  | .str s => s.data.all (fun c => c != '.' && c != '[' && c != ']')
  | .idx _ => true

/-- A nonempty path of separator-free segments. -/
def plainPath (p : List Seg) : Bool := !p.isEmpty && p.all plainSeg

/-- Whether every top-level key of an object is free of `'.'`. -/
def fieldsKeysDotFree : JsonFields → Bool
  | .nil => true
  | .fcons k _ t => k.data.all (fun c => c != '.') && fieldsKeysDotFree t

/-- Whether the top-level keys of a value are free of `'.'`. -/
def topKeysDotFree : Json → Bool
  | .obj kvs => fieldsKeysDotFree kvs
  | _ => true

/-! ### Basic lemmas -/

mutual

/-- `cloneDeep` is a (structural) copy: it equals the original value. -/
theorem cloneDeep_id : ∀ v, cloneDeep v = v
  | .undefined => rfl
  | .null => rfl
  | .bool _ => rfl
  | .num _ => rfl
  | .str _ => rfl
  | .arr xs => by rw [cloneDeep, cloneList_id]
  | .obj kvs => by rw [cloneDeep, cloneFields_id]

/-- `cloneList` equals the original element list. -/
theorem cloneList_id : ∀ xs, cloneList xs = xs
  | .nil => rfl
  | .cons x xs => by rw [cloneList, cloneDeep_id, cloneList_id]

/-- `cloneFields` equals the original field list. -/
theorem cloneFields_id : ∀ kvs, cloneFields kvs = kvs
  | .nil => rfl
  | .fcons k v kvs => by rw [cloneFields, cloneDeep_id, cloneFields_id]

end

/-- A `lodashSet` on a non-object root is a no-op. -/
theorem lodashSet_nonObject {o : Json} (h : o.isObjectJs = false) (s : String) (v : Json) :
    lodashSet o s v = o := by
  simp [lodashSet, h]

/-- Annotating any issue list over a non-object root leaves it unchanged. -/
theorem foldl_applyIssue_nonObject (data : Json) (st : IssuesStyles)
    (h : data.isObjectJs = false) :
    ∀ issues : List ZodIssue, issues.foldl (applyIssue data st) data = data := by
  intro issues
  induction issues with
  | nil => rfl
  | cons i rest ih =>
    have : applyIssue data st data i = data := lodashSet_nonObject h _ _
    rw [List.foldl_cons, this, ih]

/-! ### C3: null schema -/

/-- C3: for every data value and style override, calling the entry point
with a `null`/`undefined` schema (modelled by `none`) yields the error
with the fixed message `"You must provide a valid schema!"`; the result is
the same for *every* `data`, so the data argument is never consulted. -/
theorem validateSchemaZod_nullSchema (data : Json) (st : PartialIssuesStyles) :
    validateSchemaZod data none st = .error "You must provide a valid schema!" := rfl

/-! ### C4: errors null iff success; success keeps the data -/

/-- C4: when the entry point returns, `errors` is `null` exactly when
validation succeeded; on success `dataMismatches` equals the (deep-copied)
input data, and on failure `errors` is the engine's issue list in order. -/
theorem validateSchemaZod_successShape (sch : ZodSchema) (data : Json)
    (st : PartialIssuesStyles) (res : Result)
    (h : validateSchemaZod data (some sch) st = .ok res) :
    (res.errors = none ↔ (sch.safeParse data).success = true)
    ∧ ((sch.safeParse data).success = true → res.dataMismatches = data)
    ∧ ((sch.safeParse data).success = false →
        res.errors = some (sch.safeParse data).issues) := by
  simp only [validateSchemaZod, _validateSchemaZOD] at h
  cases hs : (sch.safeParse data).success <;>
    simp only [hs, if_true, if_false, Bool.false_eq_true, Except.ok.injEq] at h <;>
    subst h <;>
    simp [hs, cloneDeep_id]

/-- Witness for C4 at a concrete schema and data value. -/
theorem validateSchemaZod_successShape_witness :
    validateSchemaZod (Json.num 7) (some ⟨fun _ => ⟨true, []⟩⟩) {}
        = .ok { errors := none, dataMismatches := Json.num 7,
                issuesStyles := issuesStylesDefault }
    ∧ ((({ errors := none, dataMismatches := Json.num 7,
           issuesStyles := issuesStylesDefault } : Result).errors = none)
        ↔ ((⟨fun _ => ⟨true, []⟩⟩ : ZodSchema).safeParse (Json.num 7)).success = true) :=
  ⟨rfl,
   (validateSchemaZod_successShape ⟨fun _ => ⟨true, []⟩⟩ (Json.num 7) {}
     { errors := none, dataMismatches := Json.num 7, issuesStyles := issuesStylesDefault }
     rfl).1⟩

/-! ### C5: the missing-property marker -/

/-- C5: for an issue whose message is the reserved `"Required"` sentinel,
the marker written (with `_.set`) at the issue's joined path is exactly
the missing-property icon, a space, and `"Missing property"` — with no
leading space. -/
theorem requiredMarker (data : Json) (st : IssuesStyles) (dm : Json) (path : List Seg) :
    applyIssue data st dm ⟨path, "Required"⟩
      = lodashSet dm (joinSegs path) (.str (st.iconPropertyMissing ++ " Missing property")) := by
  simp [applyIssue, errorDescription]

/-! ### C6: the invalid-value marker -/

/-- C6: for an issue whose message is not `"Required"`, the marker written
at the issue's joined path is a leading space, the error icon, a space,
the rendered original value, a space and the message; the rendered value
is the JSON serialization of the value read from the original data with
every double quote replaced by a single quote, and an absent value
renders as the text `"undefined"`. -/
theorem errorMarker (data : Json) (st : IssuesStyles) (dm : Json) (path : List Seg)
    (msg : String) (h : msg ≠ "Required") :
    applyIssue data st dm ⟨path, msg⟩
      = lodashSet dm (joinSegs path)
          (.str (" " ++ st.iconPropertyError ++ " "
            ++ valueDisplay (lodashGet data (joinSegs path)) ++ " " ++ msg))
    ∧ valueDisplay .undefined = "undefined"
    ∧ (∀ v s, jsonStringify v = some s → valueDisplay v = replaceQuotes s)
    ∧ (∀ v, '"' ∉ (valueDisplay v).data) := by
  refine ⟨by simp [applyIssue, errorDescription, h], rfl, ?_, ?_⟩
  · intro v s hv
    simp [valueDisplay, hv]
  · intro v
    show '"' ∉ (String.mk _).data
    intro hmem
    rcases List.mem_map.mp hmem with ⟨c, -, hc⟩
    by_cases h1 : c = '"'
    · rw [if_pos h1] at hc
      exact absurd hc (by decide)
    · rw [if_neg h1] at hc
      exact h1 hc

/-- Witness for C6 at a concrete issue. -/
theorem errorMarker_witness :
    ("boom" : String) ≠ "Required"
    ∧ (applyIssue (Json.num 5) issuesStylesDefault (Json.obj .nil) ⟨[Seg.str "a"], "boom"⟩
        = lodashSet (Json.obj .nil) (joinSegs [Seg.str "a"])
            (.str (" " ++ issuesStylesDefault.iconPropertyError ++ " "
              ++ valueDisplay (lodashGet (Json.num 5) (joinSegs [Seg.str "a"])) ++ " " ++ "boom"))
      ∧ valueDisplay .undefined = "undefined"
      ∧ (∀ v s, jsonStringify v = some s → valueDisplay v = replaceQuotes s)
      ∧ (∀ v, '"' ∉ (valueDisplay v).data)) :=
  ⟨by decide, errorMarker (Json.num 5) issuesStylesDefault (Json.obj .nil) [Seg.str "a"]
    "boom" (by decide)⟩

/-! ### C2: the rendered value is read from the original data -/

/-- C2: when an issue is processed, the value rendered into its marker is
`lodashGet` of the *original* `data` at the issue's joined path — whatever
markers the earlier issues already wrote into the accumulating copy (the
first conjunct factors the annotation fold around an arbitrary issue).
Concretely (second conjunct): with an issue at `a` followed by an issue at
the overlapping path `a.b`, the second marker still renders the original
value `1`, not the marker text the first issue wrote at `a`. -/
theorem marker_reads_original (data : Json) (st : IssuesStyles) (init : Json)
    (pre : List ZodIssue) (i : ZodIssue) (post : List ZodIssue) :
    List.foldl (applyIssue data st) init (pre ++ i :: post)
      = List.foldl (applyIssue data st)
          (lodashSet (List.foldl (applyIssue data st) init pre) (joinSegs i.path)
            (.str (errorDescription st (lodashGet data (joinSegs i.path)) i.message))) post
    ∧ annotateAll (Json.obj (jf [("a", .obj (jf [("b", .num 1)]))])) issuesStylesDefault
        [⟨[.str "a"], "bad1"⟩, ⟨[.str "a", .str "b"], "bad2"⟩]
      = .obj (jf [("a", .obj (jf [("b", .str " ⚠️ 1 bad2")]))]) := by
  constructor
  · rw [List.foldl_append, List.foldl_cons]
    rfl
  · decide

/-! ### C10: primitive root -/

/-- C10: for a non-object, non-array data value, the call never throws
(it returns `.ok`) and the returned `dataMismatches` is the unannotated
copy of the primitive, whatever issues the engine reports: the per-issue
`_.set` is a silent no-op on a non-object root (second conjunct), so the
markers are dropped. -/
theorem primitiveRoot_markersDropped (sch : ZodSchema) (data : Json)
    (st : PartialIssuesStyles) (h : data.isObjectJs = false) :
    validateSchemaZod data (some sch) st
      = .ok { errors := if (sch.safeParse data).success then none
                        else some (sch.safeParse data).issues,
              dataMismatches := data, issuesStyles := mergeStyles st }
    ∧ (∀ p v, lodashSet data p v = data) := by
  constructor
  · simp only [validateSchemaZod, _validateSchemaZOD]
    cases hs : (sch.safeParse data).success <;>
      simp [hs, cloneDeep_id, foldl_applyIssue_nonObject data (mergeStyles st) h]
  · exact fun p v => lodashSet_nonObject h p v

/-- Witness for C10: a number root with a failing schema. -/
theorem primitiveRoot_markersDropped_witness :
    (Json.num 5).isObjectJs = false
    ∧ (validateSchemaZod (Json.num 5)
          (some ⟨fun _ => ⟨false, [⟨[], "Expected object, received number"⟩]⟩⟩) {}
        = .ok { errors :=
                  if ((⟨fun _ => ⟨false, [⟨[], "Expected object, received number"⟩]⟩⟩ :
                        ZodSchema).safeParse (Json.num 5)).success then none
                  else some ((⟨fun _ => ⟨false, [⟨[], "Expected object, received number"⟩]⟩⟩ :
                        ZodSchema).safeParse (Json.num 5)).issues,
                dataMismatches := Json.num 5, issuesStyles := mergeStyles {} }
        ∧ ∀ p v, lodashSet (Json.num 5) p v = Json.num 5) :=
  ⟨by decide,
   primitiveRoot_markersDropped
     ⟨fun _ => ⟨false, [⟨[], "Expected object, received number"⟩]⟩⟩
     (Json.num 5) {} (by decide)⟩

/-! ### C9: style merging -/

/-- C9: the effective styles are the caller's partial override merged over
the defaults with caller keys winning; when the caller leaves
`iconPropertyError` unspecified it stays at its default `"⚠️"` both in
the returned `issuesStyles` and in the styles used to produce the markers
(the `dataMismatches` tree is the one computed with the merged styles),
while `iconPropertyMissing` is the caller's value when present and `"❌"`
otherwise. -/
theorem styleOverride (data : Json) (sch : ZodSchema) (ov : PartialIssuesStyles)
    (res : Result) (hov : ov.iconPropertyError = none)
    (h : validateSchemaZod data (some sch) ov = .ok res) :
    res.issuesStyles.iconPropertyError = "⚠️"
    ∧ res.issuesStyles.iconPropertyMissing = ov.iconPropertyMissing.getD "❌"
    ∧ res.issuesStyles = mergeStyles ov
    ∧ res.dataMismatches = (_validateSchemaZOD sch data (mergeStyles ov)).dataMismatches := by
  simp only [validateSchemaZod, Except.ok.injEq] at h
  subst h
  refine ⟨?_, rfl, rfl, rfl⟩
  simp [mergeStyles, hov, issuesStylesDefault]

/-- Witness for C9: overriding only the missing-property icon. -/
theorem styleOverride_witness :
    ({ iconPropertyMissing := some "❓" } : PartialIssuesStyles).iconPropertyError = none
    ∧ validateSchemaZod Json.null (some ⟨fun _ => ⟨true, []⟩⟩)
        { iconPropertyMissing := some "❓" }
      = .ok { errors := none, dataMismatches := Json.null,
              issuesStyles := { iconPropertyError := "⚠️", iconPropertyMissing := "❓" } }
    ∧ ({ errors := none, dataMismatches := Json.null,
         issuesStyles := { iconPropertyError := "⚠️", iconPropertyMissing := "❓" } } :
          Result).issuesStyles.iconPropertyError = "⚠️" :=
  ⟨rfl, rfl,
   (styleOverride Json.null ⟨fun _ => ⟨true, []⟩⟩ { iconPropertyMissing := some "❓" }
      { errors := none, dataMismatches := Json.null,
        issuesStyles := { iconPropertyError := "⚠️", iconPropertyMissing := "❓" } }
      rfl rfl).1⟩

/-! ### C1, counterexample part: a property name containing the separator

The annotator joins the issue path with `'.'` (`error.path.join('.')`) and
lets lodash re-parse the joined string, so a property name that itself
contains a `'.'` is torn apart: the marker write lands at a freshly created
location outside the issue path, and the issue-path location keeps its
original value. -/

/-- The claim of C1 is false at a concrete input: data
`{x: {"a.b": 1}}` with the single issue at path `["x", "a.b"]` yields a
`dataMismatches` in which (i) the value at the issue path `x → "a.b"` is
still the original `1` (no marker), and (ii) a new location `x → a → b`
(not an issue path; absent from the data, conjunct 3) was created holding
the marker. -/
theorem joinedPath_counterexample :
    (_validateSchemaZOD ⟨fun _ => ⟨false, [⟨[Seg.str "x", Seg.str "a.b"], "boom"⟩]⟩⟩
        (Json.obj (jf [("x", .obj (jf [("a.b", .num 1)]))])) issuesStylesDefault).dataMismatches
      = Json.obj (jf [("x", .obj (jf [("a.b", Json.num 1),
          ("a", .obj (jf [("b", .str " ⚠️ undefined boom")]))]))])
    ∧ getSeg (_validateSchemaZOD ⟨fun _ => ⟨false, [⟨[Seg.str "x", Seg.str "a.b"], "boom"⟩]⟩⟩
        (Json.obj (jf [("x", .obj (jf [("a.b", .num 1)]))])) issuesStylesDefault).dataMismatches
        [Seg.str "x", Seg.str "a.b"] = Json.num 1
    ∧ getSeg (Json.obj (jf [("x", .obj (jf [("a.b", .num 1)]))]))
        [Seg.str "x", Seg.str "a"] = Json.undefined
    ∧ getSeg (_validateSchemaZOD ⟨fun _ => ⟨false, [⟨[Seg.str "x", Seg.str "a.b"], "boom"⟩]⟩⟩
        (Json.obj (jf [("x", .obj (jf [("a.b", .num 1)]))])) issuesStylesDefault).dataMismatches
        [Seg.str "x", Seg.str "a"]
      = Json.obj (jf [("b", .str " ⚠️ undefined boom")]) := by
  refine ⟨?_, ?_, rfl, ?_⟩ <;> decide

/-! ### Lemmas about repeated writes at the same string path (for C8) -/

/-- Looking up the key just inserted. -/
theorem lookupKV_insertKV_self : ∀ (kvs : JsonFields) (k : String) (v : Json),
    lookupKV (insertKV kvs k v) k = some v
  | .nil, k, v => by simp [insertKV, lookupKV]
  | .fcons k1 v1 t, k, v => by
    by_cases h : k1 = k
    · simp [insertKV, lookupKV, h]
    · simp [insertKV, lookupKV, h, lookupKV_insertKV_self t k v]

/-- Looking up a different key after an insert. -/
theorem lookupKV_insertKV_ne : ∀ (kvs : JsonFields) (k k2 : String) (v : Json),
    k ≠ k2 → lookupKV (insertKV kvs k v) k2 = lookupKV kvs k2
  | .nil, k, k2, v, h => by simp [insertKV, lookupKV, h]
  | .fcons k1 v1 t, k, k2, v, h => by
    by_cases h1 : k1 = k
    · subst h1
      simp [insertKV, lookupKV, h]
    · simp [insertKV, lookupKV, h1, lookupKV_insertKV_ne t k k2 v h]

/-- Inserting twice at a key keeps only the later value. -/
theorem insertKV_insertKV : ∀ (kvs : JsonFields) (k : String) (a b : Json),
    insertKV (insertKV kvs k a) k b = insertKV kvs k b
  | .nil, k, a, b => by simp [insertKV]
  | .fcons k1 v1 t, k, a, b => by
    by_cases h : k1 = k
    · simp [insertKV, h]
    · simp [insertKV, h, insertKV_insertKV t k a b]

/-- `setNth` preserves the length. -/
theorem lengthL_setNth : ∀ (xs : JsonList) (n : Nat) (v : Json),
    lengthL (setNth xs n v) = lengthL xs
  | .nil, _, _ => rfl
  | .cons x t, 0, v => rfl
  | .cons x t, n + 1, v => by simp [setNth, lengthL, lengthL_setNth t n v]

/-- Length of a concatenation. -/
theorem lengthL_appendL : ∀ (xs ys : JsonList),
    lengthL (appendL xs ys) = lengthL xs + lengthL ys
  | .nil, ys => by simp [appendL, lengthL]
  | .cons x t, ys => by simp [appendL, lengthL, lengthL_appendL t ys]; omega

/-- Length of a hole padding. -/
theorem lengthL_padTail : ∀ (m : Nat) (v : Json), lengthL (padTail m v) = m + 1
  | 0, v => rfl
  | m + 1, v => by simp [padTail, lengthL, lengthL_padTail m v]

/-- Writing twice at an index keeps only the later value. -/
theorem setNth_setNth : ∀ (xs : JsonList) (n : Nat) (a b : Json),
    setNth (setNth xs n a) n b = setNth xs n b
  | .nil, _, _, _ => rfl
  | .cons x t, 0, a, b => rfl
  | .cons x t, n + 1, a, b => by simp [setNth, setNth_setNth t n a b]

/-- `setNth` past the front part of a concatenation. -/
theorem setNth_appendL_right : ∀ (xs ys : JsonList) (j : Nat) (v : Json),
    setNth (appendL xs ys) (lengthL xs + j) v = appendL xs (setNth ys j v)
  | .nil, ys, j, v => by simp [appendL, lengthL]
  | .cons x t, ys, j, v => by
    have h : lengthL (JsonList.cons x t) + j = (lengthL t + j) + 1 := by
      simp [lengthL]; omega
    rw [h]
    simp [appendL, setNth, setNth_appendL_right t ys j v]

/-- Writing at the hole-padding's final position replaces the payload. -/
theorem setNth_padTail : ∀ (m : Nat) (a b : Json), setNth (padTail m a) m b = padTail m b
  | 0, a, b => rfl
  | m + 1, a, b => by simp [padTail, setNth, setNth_padTail m a b]

/-- The element at the index just written with `setNth` (in bounds). -/
theorem nthElem_setNth_self : ∀ (xs : JsonList) (n : Nat) (v : Json),
    n < lengthL xs → nthElem (setNth xs n v) n = some v
  | .nil, n, v, h => by simp [lengthL] at h
  | .cons x t, 0, v, h => rfl
  | .cons x t, n + 1, v, h => by
    simp only [lengthL] at h
    simpa [setNth, nthElem] using nthElem_setNth_self t n v (by omega)

/-- Reading past the front part of a concatenation. -/
theorem nthElem_appendL_right : ∀ (xs ys : JsonList) (j : Nat),
    nthElem (appendL xs ys) (lengthL xs + j) = nthElem ys j
  | .nil, ys, j => by simp [appendL, lengthL]
  | .cons x t, ys, j => by
    have h : lengthL (JsonList.cons x t) + j = (lengthL t + j) + 1 := by
      simp [lengthL]; omega
    rw [h]
    simpa [appendL, nthElem] using nthElem_appendL_right t ys j

/-- The payload element of a hole padding. -/
theorem nthElem_padTail_self : ∀ (m : Nat) (v : Json), nthElem (padTail m v) m = some v
  | 0, v => rfl
  | m + 1, v => by simpa [padTail, nthElem] using nthElem_padTail_self m v

/-- A JS element write at the same index twice keeps only the later value. -/
theorem writeIdx_writeIdx (xs : JsonList) (n : Nat) (a b : Json) :
    writeIdx (writeIdx xs n a) n b = writeIdx xs n b := by
  by_cases h : n < lengthL xs
  · simp [writeIdx, h, lengthL_setNth, setNth_setNth]
  · obtain ⟨d, rfl⟩ : ∃ d, n = lengthL xs + d := ⟨n - lengthL xs, by omega⟩
    have hd : lengthL xs + d - lengthL xs = d := by omega
    have hlen : lengthL (appendL xs (padTail d a)) = lengthL xs + d + 1 := by
      rw [lengthL_appendL, lengthL_padTail]; omega
    have hn : lengthL xs + d < lengthL (appendL xs (padTail d a)) := by omega
    simp only [writeIdx, h, if_neg, if_false, hd, hn, if_pos, if_true]
    rw [setNth_appendL_right, setNth_padTail]

/-- The element at the index just written with `writeIdx`. -/
theorem nthElem_writeIdx_self (xs : JsonList) (n : Nat) (v : Json) :
    nthElem (writeIdx xs n v) n = some v := by
  by_cases h : n < lengthL xs
  · simp [writeIdx, h, nthElem_setNth_self xs n v h]
  · obtain ⟨d, rfl⟩ : ∃ d, n = lengthL xs + d := ⟨n - lengthL xs, by omega⟩
    have hd : lengthL xs + d - lengthL xs = d := by omega
    simp only [writeIdx, h, if_neg, if_false, hd]
    rw [nthElem_appendL_right, nthElem_padTail_self]

/-- The intermediate container chosen by `baseSet` is always a container. -/
theorem childBase_isObject (c : Json) (k2 : String) :
    (if c.isObjectJs = true then c
     else if isIndexStr k2 = true then Json.arr .nil else Json.obj .nil).isObjectJs = true := by
  by_cases h : c.isObjectJs = true
  · rw [if_pos h]; exact h
  · rw [if_neg h]
    by_cases h2 : isIndexStr k2 = true
    · rw [if_pos h2]; rfl
    · rw [if_neg h2]; rfl




/-- Unfolding `setParsed` on an object with at least two keys left. -/
theorem setParsed_obj_cons (kvs : JsonFields) (k k2 : String) (rest : List String) (v : Json) :
    setParsed (.obj kvs) (k :: k2 :: rest) v
      = .obj (insertKV kvs k (setParsed
          (if ((lookupKV kvs k).getD .undefined).isObjectJs = true then (lookupKV kvs k).getD .undefined
           else if isIndexStr k2 = true then Json.arr .nil else Json.obj .nil)
          (k2 :: rest) v)) := rfl

/-- Unfolding `setParsed` on an array with at least two keys left, index key. -/
theorem setParsed_arr_cons (xs : JsonList) (k k2 : String) (rest : List String) (v : Json)
    (h : isIndexStr k = true) :
    setParsed (.arr xs) (k :: k2 :: rest) v
      = .arr (writeIdx xs (digitsVal k.data) (setParsed
          (if ((nthElem xs (digitsVal k.data)).getD .undefined).isObjectJs = true
             then (nthElem xs (digitsVal k.data)).getD .undefined
           else if isIndexStr k2 = true then Json.arr .nil else Json.obj .nil)
          (k2 :: rest) v)) := by
  rw [setParsed]
  simp only [h, if_pos, if_true]

/-- Unfolding `setParsed` on an array with a non-index key: no-op. -/
theorem setParsed_arr_cons_noidx (xs : JsonList) (k k2 : String) (rest : List String) (v : Json)
    (h : isIndexStr k = false) :
    setParsed (.arr xs) (k :: k2 :: rest) v = .arr xs := by
  rw [setParsed]
  simp only [h, if_neg, if_false, Bool.false_eq_true]

/-- `setParsed` keeps an object an object. -/
theorem setParsed_obj_shape (kvs : JsonFields) (path : List String) (v : Json) :
    ∃ kvs2, setParsed (.obj kvs) path v = .obj kvs2 := by
  cases path with
  | nil => exact ⟨kvs, rfl⟩
  | cons k rest =>
    cases rest with
    | nil => exact ⟨insertKV kvs k v, rfl⟩
    | cons k2 rest2 => exact ⟨_, rfl⟩

/-- `setParsed` keeps an array an array. -/
theorem setParsed_arr_shape (xs : JsonList) (path : List String) (v : Json) :
    ∃ xs2, setParsed (.arr xs) path v = .arr xs2 := by
  cases path with
  | nil => exact ⟨xs, rfl⟩
  | cons k rest =>
    cases rest with
    | nil =>
      by_cases h : isIndexStr k
      · refine ⟨writeIdx xs (digitsVal k.data) v, ?_⟩
        simp [setParsed, h]
      · refine ⟨xs, ?_⟩
        simp [setParsed, h]
    | cons k2 rest2 =>
      by_cases h : isIndexStr k
      · exact ⟨_, setParsed_arr_cons xs k k2 rest2 v h⟩
      · exact ⟨xs, setParsed_arr_cons_noidx xs k k2 rest2 v (by simpa using h)⟩

/-- `setParsed` preserves `isObjectJs`. -/
theorem isObjectJs_setParsed (t : Json) (path : List String) (v : Json)
    (h : t.isObjectJs = true) : (setParsed t path v).isObjectJs = true := by
  cases t with
  | obj kvs => obtain ⟨kvs2, h2⟩ := setParsed_obj_shape kvs path v; rw [h2]; rfl
  | arr xs => obtain ⟨xs2, h2⟩ := setParsed_arr_shape xs path v; rw [h2]; rfl
  | undefined => exact absurd h (by simp [Json.isObjectJs])
  | null => exact absurd h (by simp [Json.isObjectJs])
  | bool b => exact absurd h (by simp [Json.isObjectJs])
  | num n => exact absurd h (by simp [Json.isObjectJs])
  | str s => exact absurd h (by simp [Json.isObjectJs])


/-- Setting twice along the same parsed key list keeps only the later
value (the second pass follows the intermediates created by the first). -/
theorem setParsed_setParsed : ∀ (path : List String) (t : Json) (a b : Json),
    setParsed (setParsed t path a) path b = setParsed t path b
  | [], t, a, b => by cases t <;> rfl
  | [k], t, a, b => by
    cases t with
    | obj kvs => simp [setParsed, insertKV_insertKV]
    | arr xs =>
      by_cases h : isIndexStr k
      · simp [setParsed, h, writeIdx_writeIdx]
      · simp [setParsed, h]
    | undefined => rfl
    | null => rfl
    | bool _ => rfl
    | num _ => rfl
    | str _ => rfl
  | k :: k2 :: rest, t, a, b => by
    cases t with
    | obj kvs =>
      rw [setParsed_obj_cons kvs k k2 rest a, setParsed_obj_cons, setParsed_obj_cons kvs k k2 rest b]
      rw [lookupKV_insertKV_self]
      have hX : ((setParsed
          (if ((lookupKV kvs k).getD .undefined).isObjectJs = true then (lookupKV kvs k).getD .undefined
           else if isIndexStr k2 = true then Json.arr .nil else Json.obj .nil)
          (k2 :: rest) a)).isObjectJs = true :=
        isObjectJs_setParsed _ _ _ (childBase_isObject _ _)
      rw [Option.getD_some, if_pos hX, setParsed_setParsed (k2 :: rest) _ a b,
        insertKV_insertKV]
    | arr xs =>
      by_cases h : isIndexStr k
      · rw [setParsed_arr_cons xs k k2 rest a h, setParsed_arr_cons _ k k2 rest b h,
          setParsed_arr_cons xs k k2 rest b h]
        rw [nthElem_writeIdx_self]
        have hX : ((setParsed
            (if ((nthElem xs (digitsVal k.data)).getD .undefined).isObjectJs = true
               then (nthElem xs (digitsVal k.data)).getD .undefined
             else if isIndexStr k2 = true then Json.arr .nil else Json.obj .nil)
            (k2 :: rest) a)).isObjectJs = true :=
          isObjectJs_setParsed _ _ _ (childBase_isObject _ _)
        rw [Option.getD_some, if_pos hX, setParsed_setParsed (k2 :: rest) _ a b,
          writeIdx_writeIdx]
      · have h' : isIndexStr k = false := by simpa using h
        rw [setParsed_arr_cons_noidx xs k k2 rest a h',
          setParsed_arr_cons_noidx xs k k2 rest b h']
    | undefined => rfl
    | null => rfl
    | bool _ => rfl
    | num _ => rfl
    | str _ => rfl

/-- `splitOnDot` never returns the empty list. -/
theorem splitOnDot_ne_nil : ∀ cs : List Char, splitOnDot cs ≠ [] := by
  intro cs
  induction cs with
  | nil => simp [splitOnDot]
  | cons c rest ih =>
    by_cases h : c = '.'
    · simp [splitOnDot, h]
    · rw [splitOnDot, if_neg h]
      cases hsp : splitOnDot rest with
      | nil => simp
      | cons g gs => simp

/-- No group produced by `splitOnDot` contains a `'.'`. -/
theorem splitOnDot_no_dot : ∀ (cs : List Char) (g : List Char),
    g ∈ splitOnDot cs → '.' ∉ g := by
  intro cs
  induction cs with
  | nil =>
    intro g hg
    simp [splitOnDot] at hg
    simp [hg]
  | cons c rest ih =>
    intro g hg
    by_cases h : c = '.'
    · rw [splitOnDot, if_pos h] at hg
      rcases List.mem_cons.mp hg with h1 | h1
      · simp [h1]
      · exact ih g h1
    · rw [splitOnDot, if_neg h] at hg
      cases hsp : splitOnDot rest with
      | nil => exact absurd hsp (splitOnDot_ne_nil rest)
      | cons g0 gs =>
        rw [hsp] at hg
        rcases List.mem_cons.mp hg with h1 | h1
        · subst h1
          intro hmem
          rcases List.mem_cons.mp hmem with h2 | h2
          · exact h h2.symm
          · exact ih g0 (hsp ▸ List.mem_cons_self g0 gs) h2
        · exact ih g (hsp ▸ List.mem_cons_of_mem g0 h1)

/-- `splitOnDot` of a dot-free character list is that single group. -/
theorem splitOnDot_of_no_dot : ∀ cs : List Char, '.' ∉ cs → splitOnDot cs = [cs] := by
  intro cs
  induction cs with
  | nil => intro _; rfl
  | cons c rest ih =>
    intro h
    have hc : c ≠ '.' := fun hc => h (hc ▸ List.mem_cons_self c rest)
    have hrest : '.' ∉ rest := fun hr => h (List.mem_cons_of_mem c hr)
    rw [splitOnDot, if_neg (fun hcc => hc hcc), ih hrest]

/-- `splitOnDot` of a list containing a dot has at least two groups. -/
theorem splitOnDot_of_dot : ∀ cs : List Char, '.' ∈ cs →
    ∃ g1 g2 gs, splitOnDot cs = g1 :: g2 :: gs := by
  intro cs
  induction cs with
  | nil => intro h; simp at h
  | cons c rest ih =>
    intro h
    by_cases hc : c = '.'
    · rw [splitOnDot, if_pos hc]
      cases hsp : splitOnDot rest with
      | nil => exact absurd hsp (splitOnDot_ne_nil rest)
      | cons g gs => exact ⟨[], g, gs, rfl⟩
    · have hrest : '.' ∈ rest := by
        rcases List.mem_cons.mp h with h1 | h1
        · exact absurd h1.symm hc
        · exact h1
      obtain ⟨g1, g2, gs, hsp⟩ := ih hrest
      rw [splitOnDot, if_neg (fun hcc => hc hcc), hsp]
      exact ⟨c :: g1, g2, gs, rfl⟩

/-- A digit character is not a separator character. -/
theorem isDigit_ne_separators {c : Char} (h : c.isDigit = true) :
    c ≠ '.' ∧ c ≠ '[' ∧ c ≠ ']' := by
  refine ⟨?_, ?_, ?_⟩ <;> intro hc <;> subst hc <;> exact absurd h (by decide)

/-- A bracket-free character list has no bracket group. -/
theorem hasBracketGroup_eq_false : ∀ cs : List Char, (∀ c ∈ cs, c ≠ '[') →
    hasBracketGroup cs = false := by
  intro cs
  induction cs with
  | nil => intro _; rfl
  | cons c rest ih =>
    intro h
    rw [hasBracketGroup]
    have hc : (c == '[') = false := by
      simp only [beq_eq_false_iff_ne]
      exact h c (List.mem_cons_self c rest)
    rw [hc]
    simp only [Bool.false_and, Bool.false_or]
    exact ih (fun x hx => h x (List.mem_cons_of_mem c hx))

/-- Reading `topHasKey` on an object. -/
theorem topHasKey_obj (kvs : JsonFields) (s : String) :
    topHasKey (.obj kvs) s = (lookupKV kvs s).isSome := rfl

/-- Reading `topHasKey` on an array. -/
theorem topHasKey_arr (xs : JsonList) (s : String) :
    topHasKey (.arr xs) s = (isIndexStr s && decide (digitsVal s.data < lengthL xs)) := rfl

/-- Every character of an index key is a digit. -/
theorem isIndexChars_all_digits : ∀ cs : List Char, isIndexChars cs = true →
    ∀ c ∈ cs, c.isDigit = true := by
  intro cs h
  cases cs with
  | nil => intro c hc; simp at hc
  | cons c0 rest =>
    rw [isIndexChars] at h
    simp only [Bool.and_eq_true, List.all_eq_true] at h
    intro c hc
    rcases List.mem_cons.mp hc with h1 | h1
    · exact h1 ▸ h.1.1
    · exact h.1.2 c h1

/-- An index key (all digits) has no deep-path syntax. -/
theorem isIndexStr_not_deep (s : String) (h : isIndexStr s = true) : isDeepProp s = false := by
  have hall : ∀ c ∈ s.data, c.isDigit = true := isIndexChars_all_digits s.data h
  unfold isDeepProp
  have h1 : s.data.any (fun c => c = '.') = false := by
    simp only [List.any_eq_false]
    intro c hc
    simpa using (isDigit_ne_separators (hall c hc)).1
  have h2 : hasBracketGroup s.data = false :=
    hasBracketGroup_eq_false s.data (fun c hc => (isDigit_ne_separators (hall c hc)).2.1)
  rw [h1, h2]
  rfl

/-- A character list containing a dot is not an index key. -/
theorem isIndexChars_of_dot : ∀ cs : List Char, '.' ∈ cs → isIndexChars cs = false := by
  intro cs h
  cases cs with
  | nil => simp at h
  | cons c rest =>
    rcases List.mem_cons.mp h with h1 | h1
    · rw [isIndexChars, ← h1]
      have hd : ('.').isDigit = false := by decide
      rw [hd]
      simp
    · rw [isIndexChars]
      have hd : rest.all Char.isDigit = false := by
        simp only [List.all_eq_false]
        exact ⟨'.', h1, by decide⟩
      rw [hd]
      simp

/-- A string containing a dot is not an index key. -/
theorem isIndexStr_of_dot (s : String) (h : '.' ∈ s.data) : isIndexStr s = false :=
  isIndexChars_of_dot s.data h

/-- After `_.set` at a string path, re-casting the same path over the
updated tree parses to the same key list: the interpretation of the path
is stable across the two writes. -/
theorem castPath_setParsed_same (t : Json) (p : String) (v : Json)
    (hc : t.isObjectJs = true) :
    castPath p (setParsed t (castPath p t) v) = castPath p t := by
  by_cases hkey : (isPlainProp p || !isDeepProp p) = true
  · unfold castPath isKeyStr
    rw [hkey]
    simp
  · have h1 : isPlainProp p = false := by
      cases hb : isPlainProp p
      · rfl
      · exact absurd (by simp [hb]) hkey
    have hdeep : isDeepProp p = true := by
      cases hd : isDeepProp p
      · exact absurd (by simp [h1, hd]) hkey
      · rfl
    have hkeyt : ∀ o : Json, isKeyStr p o = topHasKey o p := by
      intro o
      unfold isKeyStr
      rw [h1, hdeep]
      simp
    by_cases hk : topHasKey t p = true
    · have hcast : castPath p t = [p] := by unfold castPath; rw [hkeyt, hk]; rfl
      rw [hcast]
      cases t with
      | obj kvs =>
        have hset : setParsed (.obj kvs) [p] v = .obj (insertKV kvs p v) := rfl
        rw [hset]
        unfold castPath
        rw [hkeyt, topHasKey_obj, lookupKV_insertKV_self]
        rfl
      | arr xs =>
        exfalso
        rw [topHasKey_arr] at hk
        simp only [Bool.and_eq_true] at hk
        rw [isIndexStr_not_deep p hk.1] at hdeep
        exact Bool.false_ne_true hdeep
      | undefined => exact absurd hc (by decide)
      | null => exact absurd hc (by decide)
      | bool b => exact absurd hc (by simp [Json.isObjectJs])
      | num n => exact absurd hc (by simp [Json.isObjectJs])
      | str s => exact absurd hc (by simp [Json.isObjectJs])
    · have hkf : topHasKey t p = false := by simpa using hk
      have hcast : castPath p t = stringToPath p := by
        unfold castPath
        rw [hkeyt, hkf]
        rfl
      rw [hcast]
      by_cases hdot : '.' ∈ p.data
      · obtain ⟨g1, g2, gs, hsp⟩ := splitOnDot_of_dot p.data hdot
        have hg1 : String.mk g1 ≠ p := by
          intro he
          have hgd : '.' ∈ g1 := by
            have : g1 = p.data := congrArg String.data he
            rw [this]
            exact hdot
          exact splitOnDot_no_dot p.data g1 (hsp ▸ List.mem_cons_self g1 _) hgd
        have hparse : stringToPath p = String.mk g1 :: String.mk g2 :: gs.map String.mk := by
          unfold stringToPath
          rw [hsp]
          rfl
        unfold castPath
        rw [hkeyt]
        cases t with
        | obj kvs =>
          rw [hparse, setParsed_obj_cons, topHasKey_obj,
            lookupKV_insertKV_ne kvs _ p _ hg1]
          rw [topHasKey_obj] at hkf
          rw [hkf]
          rfl
        | arr xs =>
          have hpidx : isIndexStr p = false := isIndexStr_of_dot p hdot
          obtain ⟨xs2, hx2⟩ := setParsed_arr_shape xs (stringToPath p) v
          rw [hx2, topHasKey_arr, hpidx]
          rfl
        | undefined => exact absurd hc (by decide)
        | null => exact absurd hc (by decide)
        | bool b => exact absurd hc (by simp [Json.isObjectJs])
        | num n => exact absurd hc (by simp [Json.isObjectJs])
        | str s => exact absurd hc (by simp [Json.isObjectJs])
      · have hparse : stringToPath p = [p] := by
          unfold stringToPath
          rw [splitOnDot_of_no_dot p.data hdot]
          rfl
        rw [hparse]
        unfold castPath
        by_cases hlast : isKeyStr p (setParsed t [p] v) = true
        · rw [if_pos hlast]
        · rw [if_neg hlast, hparse]

/-- A `_.set` at the same string path twice keeps only the later value. -/
theorem lodashSet_lodashSet_same (t : Json) (p : String) (a b : Json) :
    lodashSet (lodashSet t p a) p b = lodashSet t p b := by
  by_cases hc : t.isObjectJs = true
  · unfold lodashSet
    rw [if_pos hc]
    have hc2 : (setParsed t (castPath p t) a).isObjectJs = true := isObjectJs_setParsed _ _ _ hc
    rw [if_pos hc2, if_pos hc, castPath_setParsed_same t p a hc, setParsed_setParsed]
  · have hb : t.isObjectJs = false := by simpa using hc
    rw [lodashSet_nonObject hb, lodashSet_nonObject hb]

/-! ### C8: last write wins, in engine order -/

/-- C8: the issues are processed by a left fold in the engine's reported
order (never re-sorted), and when two issues resolve to the same joined
path the later one's marker is the one left in the tree: the earlier
same-path issue can be dropped without changing the result, both for the
fold from an arbitrary accumulator and for the full annotation pass. -/
theorem lastIssueWins (data : Json) (st : IssuesStyles) (init : Json)
    (pre : List ZodIssue) (i1 i2 : ZodIssue) (post : List ZodIssue)
    (h : joinSegs i1.path = joinSegs i2.path) :
    List.foldl (applyIssue data st) init (pre ++ i1 :: i2 :: post)
      = List.foldl (applyIssue data st) init (pre ++ i2 :: post)
    ∧ annotateAll data st (pre ++ i1 :: i2 :: post)
      = annotateAll data st (pre ++ i2 :: post) := by
  have key : ∀ acc, applyIssue data st (applyIssue data st acc i1) i2
      = applyIssue data st acc i2 := by
    intro acc
    show lodashSet (lodashSet acc (joinSegs i1.path)
        (.str (errorDescription st (lodashGet data (joinSegs i1.path)) i1.message)))
        (joinSegs i2.path)
        (.str (errorDescription st (lodashGet data (joinSegs i2.path)) i2.message))
      = lodashSet acc (joinSegs i2.path)
          (.str (errorDescription st (lodashGet data (joinSegs i2.path)) i2.message))
    rw [h]
    exact lodashSet_lodashSet_same acc (joinSegs i2.path) _ _
  constructor
  · rw [List.foldl_append, List.foldl_append, List.foldl_cons, List.foldl_cons,
      List.foldl_cons, key]
  · unfold annotateAll
    rw [List.foldl_append, List.foldl_append, List.foldl_cons, List.foldl_cons,
      List.foldl_cons, key]

/-- Witness for C8 at two concrete issues with the same path. -/
theorem lastIssueWins_witness :
    joinSegs ((⟨[Seg.str "a"], "m1"⟩ : ZodIssue).path)
      = joinSegs ((⟨[Seg.str "a"], "m2"⟩ : ZodIssue).path)
    ∧ (List.foldl (applyIssue (Json.obj (jf [("a", .num 1)])) issuesStylesDefault)
          (Json.obj (jf [("a", .num 1)]))
          ([] ++ (⟨[Seg.str "a"], "m1"⟩ : ZodIssue) :: (⟨[Seg.str "a"], "m2"⟩ : ZodIssue) :: [])
        = List.foldl (applyIssue (Json.obj (jf [("a", .num 1)])) issuesStylesDefault)
            (Json.obj (jf [("a", .num 1)]))
            ([] ++ (⟨[Seg.str "a"], "m2"⟩ : ZodIssue) :: [])
      ∧ annotateAll (Json.obj (jf [("a", .num 1)])) issuesStylesDefault
          ([] ++ (⟨[Seg.str "a"], "m1"⟩ : ZodIssue) :: (⟨[Seg.str "a"], "m2"⟩ : ZodIssue) :: [])
        = annotateAll (Json.obj (jf [("a", .num 1)])) issuesStylesDefault
            ([] ++ (⟨[Seg.str "a"], "m2"⟩ : ZodIssue) :: [])) :=
  ⟨rfl, lastIssueWins (Json.obj (jf [("a", .num 1)])) issuesStylesDefault
    (Json.obj (jf [("a", .num 1)])) [] ⟨[Seg.str "a"], "m1"⟩ ⟨[Seg.str "a"], "m2"⟩ [] rfl⟩

/-! ### Decimal numerals (for array index segments) -/

/-- Every digit character produced is a decimal digit. -/
theorem digitChar_isDigit (d : Nat) : (digitChar d).isDigit = true := by
  by_cases h : d < 9
  · exact (by decide : ∀ e, e < 9 → (digitChar e).isDigit = true) d h
  · obtain ⟨e, rfl⟩ : ∃ e, d = e + 9 := ⟨d - 9, by omega⟩
    exact (by decide : ('9').isDigit = true)

/-- The numeric value of a digit character. -/
theorem digitChar_val (d : Nat) (h : d < 10) : (digitChar d).toNat - 48 = d :=
  (by decide : ∀ e, e < 10 → (digitChar e).toNat - 48 = e) d h

/-- A nonzero digit's character is not `'0'`. -/
theorem digitChar_ne_zero (d : Nat) (h : 0 < d) : digitChar d ≠ '0' := by
  by_cases h9 : d < 9
  · exact (by decide : ∀ e, e < 9 → 0 < e → digitChar e ≠ '0') d h9 h
  · obtain ⟨e, rfl⟩ : ∃ e, d = e + 9 := ⟨d - 9, by omega⟩
    exact (by decide : ('9' : Char) ≠ '0')

/-- All characters of a decimal numeral are digits. -/
theorem natCharsFuel_digits : ∀ (fuel n : Nat) (c : Char),
    c ∈ natCharsFuel fuel n → c.isDigit = true := by
  intro fuel
  induction fuel with
  | zero => intro n c hc; simp [natCharsFuel] at hc
  | succ f ih =>
    intro n c hc
    rw [natCharsFuel] at hc
    by_cases h10 : n < 10
    · rw [if_pos h10] at hc
      rcases List.mem_cons.mp hc with h1 | h1
      · exact h1 ▸ digitChar_isDigit n
      · simp at h1
    · rw [if_neg h10] at hc
      rcases List.mem_append.mp hc with h1 | h1
      · exact ih (n / 10) c h1
      · rcases List.mem_cons.mp h1 with h2 | h2
        · exact h2 ▸ digitChar_isDigit (n % 10)
        · simp at h2

/-- A decimal numeral with positive fuel is nonempty. -/
theorem natCharsFuel_ne_nil : ∀ (fuel n : Nat), 0 < fuel → natCharsFuel fuel n ≠ [] := by
  intro fuel n hf
  cases fuel with
  | zero => omega
  | succ f =>
    rw [natCharsFuel]
    by_cases h10 : n < 10
    · rw [if_pos h10]; simp
    · rw [if_neg h10]; simp

/-- Appending one digit multiplies the value by ten and adds the digit. -/
theorem digitsVal_append_single (xs : List Char) (c : Char) :
    digitsVal (xs ++ [c]) = 10 * digitsVal xs + (c.toNat - 48) := by
  simp [digitsVal, List.foldl_append]

/-- The decimal numeral of `n` evaluates back to `n`. -/
theorem digitsVal_natCharsFuel : ∀ (fuel n : Nat), n < fuel →
    digitsVal (natCharsFuel fuel n) = n := by
  intro fuel
  induction fuel with
  | zero => intro n h; omega
  | succ f ih =>
    intro n h
    rw [natCharsFuel]
    by_cases h10 : n < 10
    · rw [if_pos h10]
      have : digitsVal [digitChar n] = (digitChar n).toNat - 48 := by
        simp [digitsVal]
      rw [this, digitChar_val n h10]
    · rw [if_neg h10, digitsVal_append_single]
      have hdiv : n / 10 < n := Nat.div_lt_self (by omega) (by omega)
      rw [ih (n / 10) (by omega), digitChar_val (n % 10) (Nat.mod_lt n (by omega))]
      have := Nat.div_add_mod n 10
      omega

/-- The leading character of a positive decimal numeral is not `'0'`. -/
theorem natCharsFuel_head_ne_zero : ∀ (fuel n : Nat), 0 < n → n < fuel →
    ∀ c, (natCharsFuel fuel n).head? = some c → c ≠ '0' := by
  intro fuel
  induction fuel with
  | zero => intro n h hf; omega
  | succ f ih =>
    intro n hn hf c hc
    rw [natCharsFuel] at hc
    by_cases h10 : n < 10
    · rw [if_pos h10] at hc
      simp only [List.head?_cons, Option.some.injEq] at hc
      exact hc ▸ digitChar_ne_zero n hn
    · rw [if_neg h10] at hc
      have hf1 : 0 < f := by omega
      cases hxs : natCharsFuel f (n / 10) with
      | nil => exact absurd hxs (natCharsFuel_ne_nil f (n / 10) hf1)
      | cons x xsT =>
        rw [hxs] at hc
        simp only [List.cons_append, List.head?_cons, Option.some.injEq] at hc
        have hdiv1 : 0 < n / 10 := Nat.le_div_iff_mul_le (by omega) |>.mpr (by omega)
        have hdiv2 : n / 10 < f := by
          have : n / 10 < n := Nat.div_lt_self (by omega) (by omega)
          omega
        exact ih (n / 10) hdiv1 hdiv2 c (by rw [hxs]; simpa using hc)

/-- The string of a natural number is an index key. -/
theorem isIndexStr_natToString (n : Nat) : isIndexStr (natToString n) = true := by
  show isIndexChars (natCharsFuel (n + 1) n) = true
  cases hcs : natCharsFuel (n + 1) n with
  | nil => exact absurd hcs (natCharsFuel_ne_nil (n + 1) n (by omega))
  | cons c rest =>
    rw [isIndexChars]
    have hcd : c.isDigit = true :=
      natCharsFuel_digits (n + 1) n c (hcs ▸ List.mem_cons_self c rest)
    have hrd : rest.all Char.isDigit = true := by
      simp only [List.all_eq_true]
      intro x hx
      exact natCharsFuel_digits (n + 1) n x (hcs ▸ List.mem_cons_of_mem c hx)
    rw [hcd, hrd]
    by_cases hn : 0 < n
    · have : c ≠ '0' := natCharsFuel_head_ne_zero (n + 1) n hn (by omega) c (by rw [hcs]; rfl)
      simp [this]
    · have hn0 : n = 0 := by omega
      subst hn0
      have : natCharsFuel 1 0 = ['0'] := rfl
      rw [this] at hcs
      cases hcs
      simp

/-- The decimal string of `n` evaluates back to `n`. -/
theorem digitsVal_natToString (n : Nat) : digitsVal (natToString n).data = n :=
  digitsVal_natCharsFuel (n + 1) n (by omega)

/-- Characters of a separator-free path segment's string form. -/
theorem plainSeg_chars (s : Seg) (h : plainSeg s = true) :
    ∀ c ∈ (segToString s).data, c ≠ '.' ∧ c ≠ '[' ∧ c ≠ ']' := by
  cases s with
  | str str =>
    intro c hc
    rw [plainSeg] at h
    simp only [List.all_eq_true] at h
    have := h c hc
    simp only [Bool.and_eq_true, bne_iff_ne] at this
    exact ⟨this.1.1, this.1.2, this.2⟩
  | idx n =>
    intro c hc
    exact isDigit_ne_separators (natCharsFuel_digits (n + 1) n c hc)

/-! ### Joining and re-parsing separator-free segments -/

/-- `splitOnDot` after a dot-free group and a separator. -/
theorem splitOnDot_group_dot : ∀ (g rest : List Char), '.' ∉ g →
    splitOnDot (g ++ '.' :: rest) = g :: splitOnDot rest := by
  intro g
  induction g with
  | nil => intro rest h; simp [splitOnDot]
  | cons c gt ih =>
    intro rest h
    have hc : c ≠ '.' := fun hcc => h (hcc ▸ List.mem_cons_self c gt)
    have hgt : '.' ∉ gt := fun hg => h (List.mem_cons_of_mem c hg)
    rw [List.cons_append, splitOnDot, if_neg hc, ih rest hgt]

/-- Splitting undoes joining for dot-free groups. -/
theorem splitOnDot_joinChars : ∀ gs : List (List Char), gs ≠ [] →
    (∀ g ∈ gs, '.' ∉ g) → splitOnDot (joinChars gs) = gs := by
  intro gs
  induction gs with
  | nil => intro h; exact absurd rfl h
  | cons g1 tl ih =>
    intro _ h
    cases tl with
    | nil =>
      show splitOnDot g1 = [g1]
      exact splitOnDot_of_no_dot g1 (h g1 (List.mem_cons_self g1 []))
    | cons g2 tl2 =>
      show splitOnDot (g1 ++ '.' :: joinChars (g2 :: tl2)) = g1 :: g2 :: tl2
      rw [splitOnDot_group_dot g1 _ (h g1 (List.mem_cons_self g1 _))]
      rw [ih (by simp) (fun g hg => h g (List.mem_cons_of_mem g1 hg))]

/-- Joining at least two groups produces a string containing `'.'`. -/
theorem joinChars_two_mem_dot (g1 g2 : List Char) (gs : List (List Char)) :
    '.' ∈ joinChars (g1 :: g2 :: gs) := by
  show '.' ∈ g1 ++ '.' :: joinChars (g2 :: gs)
  exact List.mem_append_right g1 (List.mem_cons_self '.' _)

/-- Looking up a dotted key in a field list with dot-free keys fails. -/
theorem lookupKV_dotted_none : ∀ (kvs : JsonFields) (s : String),
    fieldsKeysDotFree kvs = true → '.' ∈ s.data → lookupKV kvs s = none
  | .nil, s, _, _ => rfl
  | .fcons k1 v1 t, s, h, hdot => by
    rw [fieldsKeysDotFree] at h
    simp only [Bool.and_eq_true] at h
    have hne : k1 ≠ s := by
      intro he
      subst he
      have := h.1
      simp only [List.all_eq_true, bne_iff_ne] at this
      exact this '.' hdot rfl
    rw [lookupKV, if_neg hne]
    exact lookupKV_dotted_none t s h.2 hdot

/-- Casting the joined path of nonempty, separator-free segments over a
tree whose top-level keys are dot-free recovers exactly the segments'
string forms: the `isKey` shortcut never fires for a multi-segment path,
and `stringToPath` splits the join back apart. -/
theorem castPath_joinSegs (t : Json) (p : List Seg) (hp : plainPath p = true)
    (ht : topKeysDotFree t = true) :
    castPath (joinSegs p) t = p.map segToString := by
  have hall : p.all plainSeg = true := by
    simp only [plainPath, Bool.and_eq_true] at hp
    exact hp.2
  cases p with
  | nil =>
    rw [plainPath] at hp
    simp at hp
  | cons s1 tl =>
    cases tl with
    | nil =>
      have heq : joinSegs [s1] = segToString s1 := rfl
      rw [heq]
      have hplain : plainSeg s1 = true := by
        simp only [List.all_eq_true] at hall
        exact hall s1 (List.mem_cons_self s1 [])
      have hdeep : isDeepProp (segToString s1) = false := by
        unfold isDeepProp
        have h1 : (segToString s1).data.any (fun c => c = '.') = false := by
          simp only [List.any_eq_false]
          intro c hc
          simpa using (plainSeg_chars s1 hplain c hc).1
        have h2 : hasBracketGroup (segToString s1).data = false :=
          hasBracketGroup_eq_false _ (fun c hc => (plainSeg_chars s1 hplain c hc).2.1)
        rw [h1, h2]
        rfl
      unfold castPath isKeyStr
      rw [hdeep]
      simp
    | cons s2 tl2 =>
      have hdot : '.' ∈ (joinSegs (s1 :: s2 :: tl2)).data := by
        show '.' ∈ joinChars ((segToString s1).data :: (segToString s2).data
          :: tl2.map (fun s => (segToString s).data))
        exact joinChars_two_mem_dot _ _ _
      have hplainf : isPlainProp (joinSegs (s1 :: s2 :: tl2)) = false := by
        unfold isPlainProp
        simp only [List.all_eq_false]
        exact ⟨'.', hdot, by decide⟩
      have hdeept : isDeepProp (joinSegs (s1 :: s2 :: tl2)) = true := by
        unfold isDeepProp
        have : (joinSegs (s1 :: s2 :: tl2)).data.any (fun c => c = '.') = true := by
          simp only [List.any_eq_true]
          exact ⟨'.', hdot, by simp⟩
        rw [this]
        rfl
      have hkey : topHasKey t (joinSegs (s1 :: s2 :: tl2)) = false := by
        cases t with
        | obj kvs =>
          rw [topHasKey_obj, lookupKV_dotted_none kvs _ ht hdot]
          rfl
        | arr xs =>
          rw [topHasKey_arr, isIndexStr_of_dot _ hdot]
          rfl
        | undefined => rfl
        | null => rfl
        | bool b => rfl
        | num n => rfl
        | str s => rfl
      unfold castPath isKeyStr
      rw [hplainf, hdeept, hkey]
      simp only [Bool.false_or, Bool.not_true, Bool.or_false, if_neg, if_false,
        Bool.false_eq_true, not_false_eq_true]
      unfold stringToPath
      have hsegs : ∀ g ∈ (s1 :: s2 :: tl2).map (fun s => (segToString s).data), '.' ∉ g := by
        intro g hg
        rcases List.mem_map.mp hg with ⟨s, hs, rfl⟩
        intro hdg
        simp only [List.all_eq_true] at hall
        exact (plainSeg_chars s (hall s hs) '.' hdg).1 rfl
      show (splitOnDot (joinChars ((s1 :: s2 :: tl2).map (fun s => (segToString s).data)))).map
          String.mk = (s1 :: s2 :: tl2).map segToString
      rw [splitOnDot_joinChars _ (by simp) hsegs]
      rw [List.map_map]
      rfl

/-! ### Segment-level reading/writing agrees with the string-path walk -/

/-- An index with an element is in bounds. -/
theorem nthElem_lt_lengthL : ∀ (xs : JsonList) (n : Nat) (c : Json),
    nthElem xs n = some c → n < lengthL xs
  | .nil, n, c, h => by simp [nthElem] at h
  | .cons x t, 0, c, h => by simp only [lengthL]; omega
  | .cons x t, n + 1, c, h => by
    have := nthElem_lt_lengthL t n c h
    simp only [lengthL]
    omega

/-- Reading another index after `setNth`. -/
theorem nthElem_setNth_ne : ∀ (xs : JsonList) (n m : Nat) (v : Json), n ≠ m →
    nthElem (setNth xs n v) m = nthElem xs m
  | .nil, _, _, _, _ => rfl
  | .cons x t, 0, 0, v, h => absurd rfl h
  | .cons x t, 0, m + 1, v, h => rfl
  | .cons x t, n + 1, 0, v, h => rfl
  | .cons x t, n + 1, m + 1, v, h =>
    nthElem_setNth_ne t n m v (fun he => h (by omega))

/-- `setNth` out of bounds is a no-op. -/
theorem setNth_oob : ∀ (xs : JsonList) (n : Nat) (v : Json), lengthL xs ≤ n →
    setNth xs n v = xs
  | .nil, _, _, _ => rfl
  | .cons x t, 0, v, h => by simp [lengthL] at h
  | .cons x t, n + 1, v, h => by
    simp only [lengthL] at h
    simp [setNth, setNth_oob t n v (by omega)]

/-- Unfolding `resolvesIn` on an object with a string segment. -/
theorem resolvesIn_obj_str (kvs : JsonFields) (k : String) (rest : List Seg) :
    resolvesIn (.obj kvs) (.str k :: rest)
      = (match lookupKV kvs k with
         | some c => resolvesIn c rest
         | none => false) := rfl

/-- Unfolding `resolvesIn` on an array with an index segment. -/
theorem resolvesIn_arr_idx (xs : JsonList) (n : Nat) (rest : List Seg) :
    resolvesIn (.arr xs) (.idx n :: rest)
      = (match nthElem xs n with
         | some c => resolvesIn c rest
         | none => false) := rfl

/-- `updateAt` at the empty path replaces the whole value. -/
theorem updateAt_nil (t v : Json) : updateAt t [] v = v := by cases t <;> rfl

/-- Unfolding `updateAt` on an object with a string segment. -/
theorem updateAt_obj_str (kvs : JsonFields) (k : String) (rest : List Seg) (v : Json) :
    updateAt (.obj kvs) (.str k :: rest) v
      = .obj (insertKV kvs k (updateAt ((lookupKV kvs k).getD .undefined) rest v)) := rfl

/-- Unfolding `updateAt` on an array with an index segment. -/
theorem updateAt_arr_idx (xs : JsonList) (n : Nat) (rest : List Seg) (v : Json) :
    updateAt (.arr xs) (.idx n :: rest) v
      = .arr (setNth xs n (updateAt ((nthElem xs n).getD .undefined) rest v)) := rfl

/-- A value in which a nonempty path resolves is a container. -/
theorem resolvesIn_cons_container : ∀ (c : Json) (x : Seg) (xs : List Seg),
    resolvesIn c (x :: xs) = true → c.isObjectJs = true := by
  intro c x xs h
  cases c with
  | obj kvs => rfl
  | arr ys => rfl
  | undefined => cases x <;> simp [resolvesIn] at h
  | null => cases x <;> simp [resolvesIn] at h
  | bool b => cases x <;> simp [resolvesIn] at h
  | num n => cases x <;> simp [resolvesIn] at h
  | str s => cases x <;> simp [resolvesIn] at h

/-- A nonempty plain path is nonempty. -/
theorem plainPath_ne_nil (p : List Seg) (h : plainPath p = true) : p ≠ [] := by
  intro he
  subst he
  simp [plainPath] at h

/-- Walking the parsed key list of separator-free segments over the tree
equals the direct segment walk, on resolving paths. -/
theorem getPath_map_eq_getSeg : ∀ (p : List Seg) (t : Json),
    resolvesIn t p = true → getPath t (p.map segToString) = getSeg t p := by
  intro p
  induction p with
  | nil => intro t _; cases t <;> rfl
  | cons s tl ih =>
    intro t hr
    cases s with
    | str k =>
      cases t with
      | obj kvs =>
        rw [resolvesIn_obj_str] at hr
        cases hlk : lookupKV kvs k with
        | none => rw [hlk] at hr; simp at hr
        | some c =>
          rw [hlk] at hr
          show getPath ((lookupKV kvs k).getD .undefined) (tl.map segToString)
            = getSeg ((lookupKV kvs k).getD .undefined) tl
          rw [hlk]
          exact ih c hr
      | arr xs => simp [resolvesIn] at hr
      | undefined => simp [resolvesIn] at hr
      | null => simp [resolvesIn] at hr
      | bool b => simp [resolvesIn] at hr
      | num n => simp [resolvesIn] at hr
      | str s => simp [resolvesIn] at hr
    | idx n =>
      cases t with
      | arr xs =>
        rw [resolvesIn_arr_idx] at hr
        cases hne : nthElem xs n with
        | none => rw [hne] at hr; simp at hr
        | some c =>
          rw [hne] at hr
          show getPath (.arr xs) (natToString n :: tl.map segToString)
            = getSeg ((nthElem xs n).getD .undefined) tl
          rw [getPath, if_pos (isIndexStr_natToString n), digitsVal_natToString, hne]
          exact ih c hr
      | obj kvs => simp [resolvesIn] at hr
      | undefined => simp [resolvesIn] at hr
      | null => simp [resolvesIn] at hr
      | bool b => simp [resolvesIn] at hr
      | num n2 => simp [resolvesIn] at hr
      | str s => simp [resolvesIn] at hr

/-- `_.get` at the joined path of a resolving, separator-free segment
sequence reads exactly the segment-addressed location. -/
theorem lodashGet_joinSegs_eq (t : Json) (p : List Seg) (hp : plainPath p = true)
    (ht : topKeysDotFree t = true) (hr : resolvesIn t p = true) :
    lodashGet t (joinSegs p) = getSeg t p := by
  rw [lodashGet, castPath_joinSegs t p hp ht]
  exact getPath_map_eq_getSeg p t hr

/-- Setting along the parsed key list of resolving, separator-free
segments equals the direct segment replacement. -/
theorem setParsed_map_eq_updateAt : ∀ (p : List Seg) (t v : Json),
    resolvesIn t p = true → p ≠ [] →
    setParsed t (p.map segToString) v = updateAt t p v := by
  intro p
  induction p with
  | nil => intro t v _ h; exact absurd rfl h
  | cons s tl ih =>
    intro t v hr _
    cases s with
    | str k =>
      cases t with
      | obj kvs =>
        rw [resolvesIn_obj_str] at hr
        cases hlk : lookupKV kvs k with
        | none => rw [hlk] at hr; simp at hr
        | some c =>
          rw [hlk] at hr
          cases tl with
          | nil =>
            show setParsed (.obj kvs) [k] v = _
            rw [updateAt_obj_str, hlk]
            simp only [Option.getD_some, updateAt_nil]
            rfl
          | cons s2 tl2 =>
            show setParsed (.obj kvs) (k :: segToString s2 :: tl2.map segToString) v = _
            rw [setParsed_obj_cons, updateAt_obj_str, hlk]
            simp only [Option.getD_some]
            have hco : c.isObjectJs = true := resolvesIn_cons_container c s2 tl2 hr
            rw [if_pos hco]
            have := ih c v hr (by simp)
            show Json.obj (insertKV kvs k (setParsed c ((s2 :: tl2).map segToString) v)) = _
            rw [this]
      | arr xs => simp [resolvesIn] at hr
      | undefined => simp [resolvesIn] at hr
      | null => simp [resolvesIn] at hr
      | bool b => simp [resolvesIn] at hr
      | num n => simp [resolvesIn] at hr
      | str s => simp [resolvesIn] at hr
    | idx n =>
      cases t with
      | arr xs =>
        rw [resolvesIn_arr_idx] at hr
        cases hne : nthElem xs n with
        | none => rw [hne] at hr; simp at hr
        | some c =>
          rw [hne] at hr
          have hlt : n < lengthL xs := nthElem_lt_lengthL xs n c hne
          cases tl with
          | nil =>
            show setParsed (.arr xs) [natToString n] v = _
            rw [setParsed, if_pos (isIndexStr_natToString n), digitsVal_natToString,
              updateAt_arr_idx, writeIdx, if_pos hlt, hne]
            simp only [Option.getD_some, updateAt_nil]
          | cons s2 tl2 =>
            show setParsed (.arr xs) (natToString n :: segToString s2 :: tl2.map segToString) v
              = _
            rw [setParsed_arr_cons xs _ _ _ v (isIndexStr_natToString n),
              digitsVal_natToString, updateAt_arr_idx, hne]
            simp only [Option.getD_some]
            have hco : c.isObjectJs = true := resolvesIn_cons_container c s2 tl2 hr
            rw [if_pos hco]
            have := ih c v hr (by simp)
            show Json.arr (writeIdx xs n (setParsed c ((s2 :: tl2).map segToString) v)) = _
            rw [this, writeIdx, if_pos hlt]
      | obj kvs => simp [resolvesIn] at hr
      | undefined => simp [resolvesIn] at hr
      | null => simp [resolvesIn] at hr
      | bool b => simp [resolvesIn] at hr
      | num n2 => simp [resolvesIn] at hr
      | str s => simp [resolvesIn] at hr

/-- `_.set` at the joined path of a resolving, separator-free segment
sequence writes exactly at the segment-addressed location. -/
theorem lodashSet_joinSegs_eq (t : Json) (p : List Seg) (v : Json)
    (hp : plainPath p = true) (ht : topKeysDotFree t = true)
    (hr : resolvesIn t p = true) :
    lodashSet t (joinSegs p) v = updateAt t p v := by
  obtain ⟨s, tl, rfl⟩ : ∃ s tl, p = s :: tl := by
    cases p with
    | nil => exact absurd rfl (plainPath_ne_nil [] hp)
    | cons s tl => exact ⟨s, tl, rfl⟩
  have hc : t.isObjectJs = true := resolvesIn_cons_container t s tl hr
  rw [lodashSet, if_pos hc, castPath_joinSegs t _ hp ht]
  exact setParsed_map_eq_updateAt (s :: tl) t v hr (by simp)

/-! ### Preservation lemmas for the segment-level replacement -/

/-- Reading `getSeg` on an object with a string segment. -/
theorem getSeg_obj_str (kvs : JsonFields) (k : String) (rest : List Seg) :
    getSeg (.obj kvs) (.str k :: rest) = getSeg ((lookupKV kvs k).getD .undefined) rest := rfl

/-- Reading `getSeg` on an array with an index segment. -/
theorem getSeg_arr_idx (xs : JsonList) (n : Nat) (rest : List Seg) :
    getSeg (.arr xs) (.idx n :: rest) = getSeg ((nthElem xs n).getD .undefined) rest := rfl

/-- The empty path is an ancestor of every path. -/
theorem ancestorOfSegs_nil (q : List Seg) : ancestorOfSegs [] q = true := by
  cases q <;> rfl

/-- Equal heads reduce the ancestor test. -/
theorem ancestorOfSegs_cons_same (s : Seg) (p q : List Seg) :
    ancestorOfSegs (s :: p) (s :: q) = ancestorOfSegs p q := by
  simp [ancestorOfSegs]

/-- Different heads refute the ancestor test. -/
theorem ancestorOfSegs_cons_ne {s u : Seg} (p q : List Seg) (h : s ≠ u) :
    ancestorOfSegs (s :: p) (u :: q) = false := by
  simp [ancestorOfSegs, h]

/-- An in-bounds index has an element. -/
theorem nthElem_of_lt : ∀ (xs : JsonList) (n : Nat), n < lengthL xs →
    ∃ c, nthElem xs n = some c
  | .nil, n, h => by simp [lengthL] at h
  | .cons x t, 0, _ => ⟨x, rfl⟩
  | .cons x t, n + 1, h => by
    simp only [lengthL] at h
    exact nthElem_of_lt t n (by omega)

/-- `insertKV` with a dot-free key preserves dot-free keys. -/
theorem insertKV_fieldsKeysDotFree : ∀ (kvs : JsonFields) (k : String) (v : Json),
    fieldsKeysDotFree kvs = true → k.data.all (fun c => c != '.') = true →
    fieldsKeysDotFree (insertKV kvs k v) = true
  | .nil, k, v, _, hk => by simp [insertKV, fieldsKeysDotFree, hk]
  | .fcons k1 v1 t, k, v, h, hk => by
    rw [fieldsKeysDotFree] at h
    simp only [Bool.and_eq_true] at h
    by_cases he : k1 = k
    · rw [insertKV, if_pos he, fieldsKeysDotFree, h.1, h.2]
      rfl
    · rw [insertKV, if_neg he, fieldsKeysDotFree, h.1,
        insertKV_fieldsKeysDotFree t k v h.2 hk]
      rfl

/-- A plain path consists of plain segments. -/
theorem plainPath_all (p : List Seg) (h : plainPath p = true) : p.all plainSeg = true := by
  simp only [plainPath, Bool.and_eq_true] at h
  exact h.2

/-- A plain string segment's key is dot-free. -/
theorem plainSeg_str_dotFree (k : String) (h : plainSeg (.str k) = true) :
    k.data.all (fun c => c != '.') = true := by
  rw [plainSeg] at h
  simp only [List.all_eq_true] at h ⊢
  intro c hc
  have := h c hc
  simp only [Bool.and_eq_true] at this
  exact this.1.1

/-- `updateAt` with a marker string and plain segments keeps the top-level
keys dot-free. -/
theorem updateAt_topKeysDotFree (t : Json) (p : List Seg) (m : String)
    (ht : topKeysDotFree t = true) (hp : p.all plainSeg = true) :
    topKeysDotFree (updateAt t p (.str m)) = true := by
  cases p with
  | nil => rw [updateAt_nil]; rfl
  | cons s tl =>
    cases s with
    | str k =>
      cases t with
      | obj kvs =>
        rw [updateAt_obj_str]
        show fieldsKeysDotFree (insertKV kvs k _) = true
        apply insertKV_fieldsKeysDotFree kvs k _ ht
        apply plainSeg_str_dotFree
        simp only [List.all_eq_true] at hp
        exact hp (.str k) (List.mem_cons_self _ _)
      | arr xs => exact ht
      | undefined => exact ht
      | null => exact ht
      | bool b => exact ht
      | num n => exact ht
      | str s => exact ht
    | idx n =>
      cases t with
      | arr xs => rw [updateAt_arr_idx]; rfl
      | obj kvs => exact ht
      | undefined => exact ht
      | null => exact ht
      | bool b => exact ht
      | num n2 => exact ht
      | str s => exact ht

/-- Replacing at `p` keeps every path that `p` does not strictly dominate
resolving: the other issue paths survive an `updateAt`. -/
theorem updateAt_resolvesIn : ∀ (p q : List Seg) (t v : Json),
    resolvesIn t p = true → resolvesIn t q = true →
    ¬(ancestorOfSegs p q = true ∧ p ≠ q) →
    resolvesIn (updateAt t p v) q = true := by
  intro p
  induction p with
  | nil =>
    intro q t v _ hq hno
    have hqnil : q = [] := by
      by_contra hne
      exact hno ⟨ancestorOfSegs_nil q, fun he => hne he.symm⟩
    subst hqnil
    rw [updateAt_nil]
    cases v <;> rfl
  | cons s p' ih =>
    intro q t v hp hq hno
    cases q with
    | nil => cases updateAt t (s :: p') v <;> rfl
    | cons u q' =>
      cases s with
      | str k =>
        cases t with
        | obj kvs =>
          rw [resolvesIn_obj_str] at hp
          cases hlk : lookupKV kvs k with
          | none => rw [hlk] at hp; simp at hp
          | some c =>
            rw [hlk] at hp
            rw [updateAt_obj_str, hlk]
            simp only [Option.getD_some]
            cases u with
            | idx m => simp [resolvesIn] at hq
            | str k2 =>
              rw [resolvesIn_obj_str] at hq ⊢
              by_cases hk : k2 = k
              · subst hk
                rw [lookupKV_insertKV_self]
                rw [hlk] at hq
                show resolvesIn (updateAt c p' v) q' = true
                apply ih q' c v hp hq
                rintro ⟨hanc, hne⟩
                apply hno
                refine ⟨?_, fun he => hne (by injection he)⟩
                rw [ancestorOfSegs_cons_same]
                exact hanc
              · rw [lookupKV_insertKV_ne kvs k k2 _ (fun he => hk he.symm)]
                exact hq
        | arr xs => simp [resolvesIn] at hp
        | undefined => simp [resolvesIn] at hp
        | null => simp [resolvesIn] at hp
        | bool b => simp [resolvesIn] at hp
        | num n => simp [resolvesIn] at hp
        | str s2 => simp [resolvesIn] at hp
      | idx n =>
        cases t with
        | arr xs =>
          rw [resolvesIn_arr_idx] at hp
          cases hne : nthElem xs n with
          | none => rw [hne] at hp; simp at hp
          | some c =>
            rw [hne] at hp
            rw [updateAt_arr_idx, hne]
            simp only [Option.getD_some]
            cases u with
            | str k2 => simp [resolvesIn] at hq
            | idx m =>
              rw [resolvesIn_arr_idx] at hq ⊢
              by_cases hm : m = n
              · subst hm
                rw [nthElem_setNth_self xs m _ (nthElem_lt_lengthL xs m c hne)]
                rw [hne] at hq
                show resolvesIn (updateAt c p' v) q' = true
                apply ih q' c v hp hq
                rintro ⟨hanc, hneq⟩
                apply hno
                refine ⟨?_, fun he => hneq (by injection he)⟩
                rw [ancestorOfSegs_cons_same]
                exact hanc
              · rw [nthElem_setNth_ne xs n m _ (fun he => hm he.symm)]
                exact hq
        | obj kvs => simp [resolvesIn] at hp
        | undefined => simp [resolvesIn] at hp
        | null => simp [resolvesIn] at hp
        | bool b => simp [resolvesIn] at hp
        | num n2 => simp [resolvesIn] at hp
        | str s2 => simp [resolvesIn] at hp

/-- Frame property of the segment-level replacement: a location that is
neither above nor below the replaced path is unchanged. -/
theorem updateAt_frame : ∀ (p q : List Seg) (t v : Json),
    ancestorOfSegs p q = false → ancestorOfSegs q p = false →
    getSeg (updateAt t p v) q = getSeg t q := by
  intro p
  induction p with
  | nil => intro q t v h1 _; rw [ancestorOfSegs_nil] at h1; simp at h1
  | cons s p' ih =>
    intro q t v h1 h2
    cases q with
    | nil => rw [ancestorOfSegs_nil] at h2; simp at h2
    | cons u q' =>
      cases s with
      | str k =>
        cases t with
        | obj kvs =>
          rw [updateAt_obj_str]
          cases u with
          | idx m => rfl
          | str k2 =>
            by_cases hk : k2 = k
            · subst hk
              rw [getSeg_obj_str, getSeg_obj_str, lookupKV_insertKV_self, Option.getD_some]
              rw [ancestorOfSegs_cons_same] at h1 h2
              exact ih q' _ v h1 h2
            · rw [getSeg_obj_str, getSeg_obj_str,
                lookupKV_insertKV_ne kvs k k2 _ (fun he => hk he.symm)]
        | arr xs => rfl
        | undefined => rfl
        | null => rfl
        | bool b => rfl
        | num n => rfl
        | str s2 => rfl
      | idx n =>
        cases t with
        | arr xs =>
          rw [updateAt_arr_idx]
          cases u with
          | str k2 => rfl
          | idx m =>
            by_cases hm : m = n
            · subst hm
              by_cases hlt : m < lengthL xs
              · obtain ⟨c, hc⟩ := nthElem_of_lt xs m hlt
                rw [getSeg_arr_idx, getSeg_arr_idx, nthElem_setNth_self xs m _ hlt,
                  Option.getD_some, hc, Option.getD_some]
                rw [ancestorOfSegs_cons_same] at h1 h2
                have := ih q' ((nthElem xs m).getD .undefined) v h1 h2
                rw [hc, Option.getD_some] at this
                exact this
              · rw [setNth_oob xs m _ (by omega)]
            · rw [getSeg_arr_idx, getSeg_arr_idx,
                nthElem_setNth_ne xs n m _ (fun he => hm he.symm)]
        | obj kvs => rfl
        | undefined => rfl
        | null => rfl
        | bool b => rfl
        | num n2 => rfl
        | str s2 => rfl

/-! ### C1, amended part: the invariant under separator-free paths -/

/-- C1 (amended): provided the top-level property names of `data` are
dot-free, every issue path is a nonempty sequence of separator-free
segments that resolves to an existing location in `data`, and no issue
path is a proper ancestor of a later issue's path, the annotation pass is
exactly the segment-level replacement of each issue location by its marker
string (first conjunct) — so `dataMismatches` has identical shape to
`data` except at issue paths; in particular every location neither above
nor below an issue path holds its original value (second conjunct). -/
theorem annotate_shape_invariant (data : Json) (st : IssuesStyles) (issues : List ZodIssue)
    (hdata : topKeysDotFree data = true)
    (hiss : ∀ i ∈ issues, plainPath i.path = true ∧ resolvesIn data i.path = true)
    (horder : List.Pairwise
      (fun i j : ZodIssue => ¬(ancestorOfSegs i.path j.path = true ∧ i.path ≠ j.path)) issues) :
    annotateAll data st issues
      = issues.foldl (fun t2 i => updateAt t2 i.path
          (.str (errorDescription st (getSeg data i.path) i.message))) data
    ∧ (∀ q : List Seg,
        (∀ i ∈ issues, ancestorOfSegs i.path q = false ∧ ancestorOfSegs q i.path = false) →
        getSeg (annotateAll data st issues) q = getSeg data q) := by
  have main : ∀ (l : List ZodIssue) (t : Json),
      topKeysDotFree t = true →
      (∀ i ∈ l, plainPath i.path = true ∧ resolvesIn data i.path = true
        ∧ resolvesIn t i.path = true) →
      List.Pairwise
        (fun i j : ZodIssue => ¬(ancestorOfSegs i.path j.path = true ∧ i.path ≠ j.path)) l →
      List.foldl (applyIssue data st) t l
        = l.foldl (fun t2 i => updateAt t2 i.path
            (.str (errorDescription st (getSeg data i.path) i.message))) t := by
    intro l
    induction l with
    | nil => intro t _ _ _; rfl
    | cons i rest ih =>
      intro t ht hall hpw
      rw [List.foldl_cons, List.foldl_cons]
      obtain ⟨hp, hrd, hrt⟩ := hall i (List.mem_cons_self i rest)
      have happ : applyIssue data st t i
          = updateAt t i.path (.str (errorDescription st (getSeg data i.path) i.message)) := by
        show lodashSet t (joinSegs i.path)
            (.str (errorDescription st (lodashGet data (joinSegs i.path)) i.message))
          = _
        rw [lodashGet_joinSegs_eq data i.path hp hdata hrd]
        exact lodashSet_joinSegs_eq t i.path _ hp ht hrt
      rw [happ]
      have hpw' := List.pairwise_cons.mp hpw
      apply ih
      · exact updateAt_topKeysDotFree t i.path _ ht (plainPath_all i.path hp)
      · intro j hj
        obtain ⟨hpj, hrdj, hrtj⟩ := hall j (List.mem_cons_of_mem i hj)
        exact ⟨hpj, hrdj, updateAt_resolvesIn i.path j.path t _ hrt hrtj (hpw'.1 j hj)⟩
      · exact hpw'.2
  have frame2 : ∀ (l : List ZodIssue) (t : Json) (q : List Seg),
      (∀ i ∈ l, ancestorOfSegs i.path q = false ∧ ancestorOfSegs q i.path = false) →
      getSeg (l.foldl (fun t2 i => updateAt t2 i.path
          (.str (errorDescription st (getSeg data i.path) i.message))) t) q = getSeg t q := by
    intro l
    induction l with
    | nil => intro t q _; rfl
    | cons i rest ih =>
      intro t q hq
      rw [List.foldl_cons]
      rw [ih _ q (fun j hj => hq j (List.mem_cons_of_mem i hj))]
      exact updateAt_frame i.path q t _ (hq i (List.mem_cons_self i rest)).1
        (hq i (List.mem_cons_self i rest)).2
  have hmain : annotateAll data st issues
      = issues.foldl (fun t2 i => updateAt t2 i.path
          (.str (errorDescription st (getSeg data i.path) i.message))) data := by
    unfold annotateAll
    rw [cloneDeep_id]
    exact main issues data hdata
      (fun i hi => ⟨(hiss i hi).1, (hiss i hi).2, (hiss i hi).2⟩) horder
  refine ⟨hmain, ?_⟩
  intro q hq
  rw [hmain]
  exact frame2 issues data q hq

/-- Witness for the amended C1 at a concrete data value and issue list. -/
theorem annotate_shape_invariant_witness :
    topKeysDotFree (Json.obj (jf [("a", .num 1), ("b", .obj (jf [("c", .str "x")]))])) = true
    ∧ (∀ i ∈ [(⟨[Seg.str "b", Seg.str "c"], "Expected number, received string"⟩ : ZodIssue),
               (⟨[Seg.str "a"], "Required"⟩ : ZodIssue)],
        plainPath i.path = true
        ∧ resolvesIn (Json.obj (jf [("a", .num 1), ("b", .obj (jf [("c", .str "x")]))]))
            i.path = true)
    ∧ List.Pairwise
        (fun i j : ZodIssue => ¬(ancestorOfSegs i.path j.path = true ∧ i.path ≠ j.path))
        [(⟨[Seg.str "b", Seg.str "c"], "Expected number, received string"⟩ : ZodIssue),
         (⟨[Seg.str "a"], "Required"⟩ : ZodIssue)]
    ∧ (annotateAll (Json.obj (jf [("a", .num 1), ("b", .obj (jf [("c", .str "x")]))]))
          issuesStylesDefault
          [(⟨[Seg.str "b", Seg.str "c"], "Expected number, received string"⟩ : ZodIssue),
           (⟨[Seg.str "a"], "Required"⟩ : ZodIssue)]
        = List.foldl (fun t2 i => updateAt t2 i.path
            (.str (errorDescription issuesStylesDefault
              (getSeg (Json.obj (jf [("a", .num 1), ("b", .obj (jf [("c", .str "x")]))])) i.path)
              i.message)))
            (Json.obj (jf [("a", .num 1), ("b", .obj (jf [("c", .str "x")]))]))
            [(⟨[Seg.str "b", Seg.str "c"], "Expected number, received string"⟩ : ZodIssue),
             (⟨[Seg.str "a"], "Required"⟩ : ZodIssue)]
      ∧ (∀ q : List Seg,
          (∀ i ∈ [(⟨[Seg.str "b", Seg.str "c"], "Expected number, received string"⟩ : ZodIssue),
                  (⟨[Seg.str "a"], "Required"⟩ : ZodIssue)],
            ancestorOfSegs i.path q = false ∧ ancestorOfSegs q i.path = false) →
          getSeg (annotateAll (Json.obj (jf [("a", .num 1), ("b", .obj (jf [("c", .str "x")]))]))
              issuesStylesDefault
              [(⟨[Seg.str "b", Seg.str "c"], "Expected number, received string"⟩ : ZodIssue),
               (⟨[Seg.str "a"], "Required"⟩ : ZodIssue)]) q
            = getSeg (Json.obj (jf [("a", .num 1), ("b", .obj (jf [("c", .str "x")]))])) q)) :=
  ⟨by decide, by decide, by decide,
   annotate_shape_invariant
     (Json.obj (jf [("a", .num 1), ("b", .obj (jf [("c", .str "x")]))]))
     issuesStylesDefault
     [⟨[Seg.str "b", Seg.str "c"], "Expected number, received string"⟩,
      ⟨[Seg.str "a"], "Required"⟩]
     (by decide) (by decide) (by decide)⟩

end ZodValidator
